import Mathlib

/-!
Verification of the mesh-topology and wake subsystem of the PyPan panel-method
solver (`pypan/mesh.py`, `pypan/wake.py`).  Floating-point arrays are embedded
as functions into a record of three real numbers; the numpy vector helpers
`vec_cross`, `vec_inner`, `vec_norm`, `norm`, `cross` from `pypan/pp_math.py`
are the standard cross product, inner product and Euclidean norm on ℝ³.
-/

noncomputable section
open scoped Classical

/-- A 3-vector of reals, embedding one row of a numpy `(…,3)` array. -/
@[ext] structure Vec3 where
  x : ℝ
  y : ℝ
  z : ℝ

instance : Zero Vec3 := ⟨⟨0, 0, 0⟩⟩
instance : Add Vec3 := ⟨fun a b => ⟨a.x + b.x, a.y + b.y, a.z + b.z⟩⟩
instance : Sub Vec3 := ⟨fun a b => ⟨a.x - b.x, a.y - b.y, a.z - b.z⟩⟩
instance : Neg Vec3 := ⟨fun a => ⟨-a.x, -a.y, -a.z⟩⟩
instance : SMul ℝ Vec3 := ⟨fun c a => ⟨c * a.x, c * a.y, c * a.z⟩⟩
instance : Inhabited Vec3 := ⟨0⟩

/-- `pypan.pp_math.cross` / `vec_cross`: the standard cross product. -/
def Vec3.cross (a b : Vec3) : Vec3 :=
  ⟨a.y * b.z - a.z * b.y, a.z * b.x - a.x * b.z, a.x * b.y - a.y * b.x⟩

/-- `pypan.pp_math.inner` / `vec_inner`: the standard dot product. -/
def Vec3.dot (a b : Vec3) : ℝ := a.x * b.x + a.y * b.y + a.z * b.z

/-- `pypan.pp_math.norm` / `vec_norm`: the Euclidean norm. -/
def Vec3.norm (a : Vec3) : ℝ := Real.sqrt (a.x ^ 2 + a.y ^ 2 + a.z ^ 2)

/-- A Kutta edge (`pypan.geometry.KuttaEdge` data): the two edge vertices and the
ordered pair of bracketing-panel indices `[i, j]`. -/
structure KuttaEdge where
  v0 : Vec3
  v1 : Vec3
  panels : ℕ × ℕ

instance : Inhabited KuttaEdge := ⟨⟨0, 0, (0, 0)⟩⟩

/-- Modelled from the spec: `KuttaEdge.get_vortex_influence` lives in the missing
`pypan/geometry.py`; the spec calls it the "standard finite-length Biot–Savart
velocity between two endpoints" for unit circulation.  This is the standard
two-endpoint Biot–Savart expression
`(1/4π)·(|r0|+|r1|)·(r0×r1)/(|r0||r1|(|r0||r1|+r0·r1))` with `r0 = p − v0`,
`r1 = p − v1`. -/
def kuttaEdgeVortexInfluence (e : KuttaEdge) (p : Vec3) : Vec3 :=
  let r0 := p - e.v0
  let r1 := p - e.v1
  let m0 := Vec3.norm r0
  let m1 := Vec3.norm r1
  ((0.25 / Real.pi) * (m0 + m1) / (m0 * m1 * (m0 * m1 + Vec3.dot r0 r1))) • Vec3.cross r0 r1

/-- The semi-infinite straight-filament kernel of
`NonIterativeWake.get_influence_matrix` (`wake.py` lines 238–243):
`0.25/π * cross(u, r) / (r_mag * (r_mag − inner(u, r)))` with `r = p − o`. -/
def filamentInfluenceKernel (u o p : Vec3) : Vec3 :=
  let r := p - o
  let rm := Vec3.norm r
  ((0.25 / Real.pi) / (rm * (rm - Vec3.dot u r))) • Vec3.cross u r

/-- The spec's own formula for the semi-infinite straight filament:
`V(p) = (1/4π)·(u×r)/(|r|·(|r|−u·r))`, stated verbatim for the refinement
comparison in C3. -/
def specSemiInfiniteFilament (u o p : Vec3) : Vec3 :=
  let r := p - o
  (1 / (4 * Real.pi)) • ((1 / (Vec3.norm r * (Vec3.norm r - Vec3.dot u r))) • Vec3.cross u r)

/-- The per-edge vertex array layout of `Wake._arrange_kutta_vertices`
(`wake.py` lines 33–38): `vertices[2i] = edge_i.v0`, `vertices[2i+1] = edge_i.v1`. -/
def kuttaVertexList (edges : List KuttaEdge) : List Vec3 :=
  edges.foldr (fun e acc => e.v0 :: e.v1 :: acc) []

/-- Lexicographic row order used by `np.unique(…, axis=0)` on `(N,3)` arrays. -/
def vecLe (a b : Vec3) : Prop :=
  a.x < b.x ∨ (a.x = b.x ∧ (a.y < b.y ∨ (a.y = b.y ∧ a.z ≤ b.z)))

/-- Insertion step of the lexicographic sort modelling `np.unique`'s row sort. -/
def insertLex (v : Vec3) : List Vec3 → List Vec3
  | [] => [v]
  | w :: rest => if vecLe v w then v :: w :: rest else w :: insertLex v rest

/-- Lexicographic sort of rows, modelling the sort inside `np.unique(…, axis=0)`. -/
def sortLex : List Vec3 → List Vec3
  | [] => []
  | v :: rest => insertLex v (sortLex rest)

/-- Collapse of equal consecutive rows, modelling the dedup inside `np.unique`. -/
def dedupAdjacent : List Vec3 → List Vec3
  | [] => []
  | [v] => [v]
  | v :: w :: rest => if v = w then dedupAdjacent (w :: rest) else v :: dedupAdjacent (w :: rest)

/-- Index of the first occurrence of a row, giving `np.unique`'s `inverse_indices`. -/
def indexOfVec (v : Vec3) : List Vec3 → ℕ
  | [] => 0
  | w :: rest => if v = w then 0 else indexOfVec v rest + 1

/-- The `panel_indices` list of a Kutta edge as copied by
`Wake._arrange_kutta_vertices` (`copy.copy(self._kutta_edges[j//2].panel_indices)`). -/
def panelsOf (e : KuttaEdge) : List ℕ := [e.panels.1, e.panels.2]

/-- The scan over `inverse_indices` in `Wake._arrange_kutta_vertices`
(`wake.py` lines 49–56): for unique-vertex index `i`, walk the inverse indices
`inv` (paired with their position `j`); whenever `inv[j] = i`, overwrite the
inbound pair (`j` even) or the outbound pair (`j` odd) with the panel indices of
edge `j/2`. -/
def scanRolesGo (edges : List KuttaEdge) (i : ℕ) :
    ℕ → List ℕ → List ℕ × List ℕ → List ℕ × List ℕ
  | _, [], st => st
  | j, ind :: rest, (ip, op) =>
    scanRolesGo edges i (j + 1) rest
      (if ind = i then
        (if j % 2 = 0 then (panelsOf (edges.getD (j / 2) default), op)
         else (ip, panelsOf (edges.getD (j / 2) default)))
       else (ip, op))

/-- `Wake._arrange_kutta_vertices` (`wake.py` lines 27–62): when at least one
Kutta edge exists, return the unique vertex list together with the per-vertex
inbound and outbound panel pairs; with zero edges the local `unique_vertices`
is never assigned and the `return` raises `UnboundLocalError`, modelled as
`none`. -/
def arrangeKuttaVertices (edges : List KuttaEdge) :
    Option (List Vec3 × List (List ℕ) × List (List ℕ)) :=
  if edges = [] then none
  else
    let vs := kuttaVertexList edges
    let uniq := dedupAdjacent (sortLex vs)
    let inv := vs.map (fun v => indexOfVec v uniq)
    let roles := (List.range uniq.length).map (fun i => scanRolesGo edges i 0 inv ([], []))
    some (uniq, roles.map Prod.fst, roles.map Prod.snd)

/-- The non-iterative (fixed-direction) wake state
(`NonIterativeWake.__init__`, `wake.py` lines 123–157). -/
structure NonIterativeWake where
  kuttaEdges : List KuttaEdge
  wtype : String
  vertices : List Vec3
  inboundPanels : List (List ℕ)
  outboundPanels : List (List ℕ)
  filamentDirs : List Vec3
  constraintNormal : Option Vec3

instance : Inhabited NonIterativeWake := ⟨⟨[], "", [], [], [], [], none⟩⟩

/-- Whether the first character list is a leading segment of the second. -/
def charListHasPre : List Char → List Char → Bool
  | [], _ => true
  | _ :: _, [] => false
  | p :: ps, a :: as => p == a && charListHasPre ps as

/-- Substring containment on character lists (Python's `pat in text`). -/
def charListContains : List Char → List Char → Bool
  | [], pat => charListHasPre pat []
  | a :: as, pat => charListHasPre pat (a :: as) || charListContains as pat

/-- Whether the wake type string contains `"constrained"`
(`"constrained" in self._type`). -/
def typeIsConstrained (t : String) : Bool :=
  charListContains t.data ("constrained").data

/-- `NonIterativeWake.__init__` (`wake.py` lines 123–157): store the type,
arrange the Kutta vertices (raising on an empty edge list), zero-initialize the
filament directions, resolve the custom direction and the constraint normal,
raising `IOError` when a required parameter is missing. -/
def mkNonIterativeWake (edges : List KuttaEdge) (wtype : String)
    (dir : Option Vec3) (normalDir : Option Vec3) : Except String NonIterativeWake :=
  match arrangeKuttaVertices edges with
  | none => Except.error "UnboundLocalError: unique_vertices referenced before assignment"
  | some (verts, inb, outb) =>
    let dirs0 : List Vec3 := List.replicate verts.length 0
    if wtype = "custom" then
      match dir with
      | none => Except.error "IOError: dir is required for non-iterative wake type custom"
      | some d =>
        let u := ((Vec3.norm d)⁻¹) • d
        if typeIsConstrained wtype then
          match normalDir with
          | none => Except.error "IOError: normal_dir is required"
          | some n =>
            Except.ok ⟨edges, wtype, verts, inb, outb, List.replicate verts.length u,
              some (((Vec3.norm n)⁻¹) • n)⟩
        else
          Except.ok ⟨edges, wtype, verts, inb, outb, List.replicate verts.length u, none⟩
    else if typeIsConstrained wtype then
      match normalDir with
      | none => Except.error "IOError: normal_dir is required"
      | some n =>
        Except.ok ⟨edges, wtype, verts, inb, outb, dirs0, some (((Vec3.norm n)⁻¹) • n)⟩
    else
      Except.ok ⟨edges, wtype, verts, inb, outb, dirs0, none⟩

/-- Projection onto the plane orthogonal to `n`:
`P = I − n nᵀ` from `NonIterativeWake.__init__`, applied to a vector. -/
def projPlane (n v : Vec3) : Vec3 := v - (Vec3.dot n v) • n

/-- `NonIterativeWake.set_filament_direction` (`wake.py` lines 160–192):
recompute every filament direction from the freestream velocity and the
angular rate according to the wake type. -/
def setFilamentDirection (w : NonIterativeWake) (vInf omega : Vec3) : NonIterativeWake :=
  if w.wtype = "freestream" then
    { w with filamentDirs := List.replicate w.vertices.length (((Vec3.norm vInf)⁻¹) • vInf) }
  else if w.wtype = "freestream_constrained" then
    let u0 := projPlane (w.constraintNormal.getD 0) vInf
    { w with filamentDirs := List.replicate w.vertices.length (((Vec3.norm u0)⁻¹) • u0) }
  else if w.wtype = "freestream_and_rotation" then
    { w with filamentDirs :=
        w.vertices.map (fun v =>
          ((Vec3.norm (vInf - Vec3.cross omega v))⁻¹) • (vInf - Vec3.cross omega v)) }
  else if w.wtype = "freestream_and_rotation_constrained" then
    { w with filamentDirs :=
        w.vertices.map (fun v =>
          let u0 := projPlane (w.constraintNormal.getD 0) (vInf - Vec3.cross omega v)
          ((Vec3.norm u0)⁻¹) • u0) }
  else w

/-- Column assignment performed for one Kutta edge in `get_influence_matrix`
(`wake.py` lines 226–236): `matrix[:, p0] = -V` then `matrix[:, p1] = V`. -/
def edgeAssign (points : List Vec3) (M : ℕ → ℕ → Vec3) (e : KuttaEdge) : ℕ → ℕ → Vec3 :=
  fun pt q =>
    if q = e.panels.2 then kuttaEdgeVortexInfluence e (points.getD pt 0)
    else if q = e.panels.1 then -(kuttaEdgeVortexInfluence e (points.getD pt 0))
    else M pt q

/-- In-place accumulation `matrix[:, c] += v` on one column. -/
def addCol (c : ℕ) (v : ℕ → Vec3) (M : ℕ → ℕ → Vec3) : ℕ → ℕ → Vec3 :=
  fun pt q => if q = c then M pt q + v pt else M pt q

/-- The scatter-add performed for a single trailing vertex in
`get_influence_matrix` (`wake.py` lines 244–256): subtract/add the filament
influence on the outbound pair, then add/subtract it on the inbound pair. -/
def scatterOne (V : ℕ → Vec3) (inb outb : List ℕ) (M : ℕ → ℕ → Vec3) : ℕ → ℕ → Vec3 :=
  let M1 := if outb ≠ [] then
      addCol (outb.getD 1 0) V (addCol (outb.getD 0 0) (fun pt => -(V pt)) M)
    else M
  if inb ≠ [] then
    addCol (inb.getD 1 0) (fun pt => -(V pt)) (addCol (inb.getD 0 0) V M1)
  else M1

/-- The filament loop of `NonIterativeWake.get_influence_matrix`
(`wake.py` lines 244–256), scattering each unique vertex's semi-infinite
filament influence. -/
def filamentScatter (points verts dirs : List Vec3)
    (inb outb : List (List ℕ)) (M : ℕ → ℕ → Vec3) : ℕ → ℕ → Vec3 :=
  (List.range verts.length).foldl
    (fun acc i =>
      scatterOne
        (fun pt => filamentInfluenceKernel (dirs.getD i 0) (verts.getD i 0) (points.getD pt 0))
        (inb.getD i []) (outb.getD i []) acc)
    M

/-- `NonIterativeWake.get_influence_matrix` (`wake.py` lines 195–258): assign the
Kutta-edge contributions column by column, then scatter-add the semi-infinite
filament contributions.  The matrix is the function `point index → panel
index → velocity`; the `nPanels` argument only fixes the numpy allocation
shape. -/
def getInfluenceMatrix (w : NonIterativeWake) (points : List Vec3) (nPanels : ℕ) :
    ℕ → ℕ → Vec3 :=
  let _ := nPanels
  let afterEdges := w.kuttaEdges.foldl (edgeAssign points) (fun _ _ => 0)
  filamentScatter points w.vertices w.filamentDirs w.inboundPanels w.outboundPanels afterEdges

/-- Modelled from the spec (the C1 reading of `get_influence_matrix`): every
Kutta edge's direct segment contribution is *summed* into the rows of its two
bracketing panels without erasing earlier contributions, and each trailing
vertex's semi-infinite filament contribution is added once for *every* Kutta
edge that the vertex terminates (inbound pair for the edge's first vertex,
outbound pair for its second), the filament direction being looked up at the
vertex's position in the wake's unique-vertex list. -/
def claimedInfluenceMatrixC1 (w : NonIterativeWake) (points : List Vec3) (nPanels : ℕ) :
    ℕ → ℕ → Vec3 :=
  let _ := nPanels
  let dirAt := fun v : Vec3 => w.filamentDirs.getD (indexOfVec v w.vertices) 0
  let afterEdges := w.kuttaEdges.foldl
    (fun M e =>
      addCol e.panels.2 (fun pt => kuttaEdgeVortexInfluence e (points.getD pt 0))
        (addCol e.panels.1 (fun pt => -(kuttaEdgeVortexInfluence e (points.getD pt 0))) M))
    (fun _ _ => 0)
  w.kuttaEdges.foldl
    (fun M e =>
      scatterOne (fun pt => filamentInfluenceKernel (dirAt e.v1) e.v1 (points.getD pt 0))
        [] (panelsOf e)
        (scatterOne (fun pt => filamentInfluenceKernel (dirAt e.v0) e.v0 (points.getD pt 0))
          (panelsOf e) [] M))
    afterEdges

/-- The base `Wake.get_influence_matrix` (`wake.py` lines 65–85): the dummy
no-wake class ignores its arguments and returns the scalar `0.0`, not a
`(points × panels × 3)` array. -/
def baseWakeGetInfluenceMatrix (points : List Vec3) (uInf omega : Vec3) : ℝ :=
  let _ := points
  let _ := uInf
  let _ := omega
  0.0

/-- Concrete single Kutta edge used to exercise the influence-matrix theorems:
vertices `(0,0,0)` and `(1,0,0)`, bracketing panels `0` and `1`. -/
def exampleEdgeC2 : KuttaEdge := ⟨⟨0, 0, 0⟩, ⟨1, 0, 0⟩, (0, 1)⟩

/-- The wake produced by `NonIterativeWake.__init__` from the single edge
`exampleEdgeC2` with type `"freestream"`. -/
def exampleWakeC2 : NonIterativeWake :=
  ⟨[exampleEdgeC2], "freestream", [⟨0, 0, 0⟩, ⟨1, 0, 0⟩], [[0, 1], []], [[], [0, 1]],
    [0, 0], none⟩

/-- The finite straight-segment Biot–Savart influence shared by the edge and
filament kernels (see `kuttaEdgeVortexInfluence`). -/
def finiteSegmentInfluence (a b p : Vec3) : Vec3 :=
  kuttaEdgeVortexInfluence ⟨a, b, (0, 0)⟩ p

/-- Modelled from the spec: a `SegmentedVortexFilament` record (missing
`pypan/filaments.py`) — an immutable anchor `p0`, a current direction, the
ordered trailing points (point 0 anchored), the inbound/outbound bracketing
panel pairs, and the infinite-end flag. -/
structure Filament where
  p0 : Vec3
  dir : Vec3
  points : List Vec3
  inboundPanels : List ℕ
  outboundPanels : List ℕ
  endInf : Bool

instance : Inhabited Filament := ⟨⟨0, 0, [0], [], [], false⟩⟩

/-- Modelled from the spec: `SegmentedVortexFilament.get_influence` — the
finite-segment kernel summed over consecutive point pairs; when the terminal
segment is flagged infinite it is evaluated with the semi-infinite kernel along
the last segment direction. -/
def filamentGetInfluence (f : Filament) (p : Vec3) : Vec3 :=
  let pairs := f.points.zip f.points.tail
  if f.endInf then
    match pairs.getLast? with
    | none => 0
    | some (a, b) =>
      pairs.dropLast.foldl (fun acc ab => acc + finiteSegmentInfluence ab.1 ab.2 p) 0 +
        filamentInfluenceKernel (((Vec3.norm (b - a))⁻¹) • (b - a)) a p
  else
    pairs.foldl (fun acc ab => acc + finiteSegmentInfluence ab.1 ab.2 p) 0

/-- The relaxed (iterative) wake state (`IterativeWake.__init__`,
`wake.py` lines 315–330). -/
structure IterativeWake where
  kuttaEdges : List KuttaEdge
  l : ℝ
  nSegments : ℕ
  correctorIterations : ℕ
  filaments : List Filament

instance : Inhabited IterativeWake := ⟨⟨[], 1, 0, 0, []⟩⟩

/-- `IterativeWake.__init__` (`wake.py` lines 315–330): store the segment
length, segment count and corrector count, arrange the Kutta vertices (raising
on an empty edge list), and build one filament per unique vertex carrying its
inbound/outbound panel pairs.  The filament constructor is modelled from the
spec (missing `pypan/filaments.py`): anchor at the vertex, single anchored
point. -/
def mkIterativeWake (edges : List KuttaEdge) (segLength : ℝ) (nSegments corrIters : ℕ) :
    Except String IterativeWake :=
  match arrangeKuttaVertices edges with
  | none => Except.error "UnboundLocalError: unique_vertices referenced before assignment"
  | some (verts, inb, outb) =>
    Except.ok ⟨edges, segLength, nSegments, corrIters,
      (verts.zip (inb.zip outb)).map (fun vio => ⟨vio.1, 0, [vio.1], vio.2.1, vio.2.2, false⟩)⟩

/-- Modelled from the spec: `SegmentedVortexFilament.initialize_points` — store
the direction and lay the trailing points from the anchor along it (point 0
fixed at the anchor). -/
def filamentInitPoints (f : Filament) (u : Vec3) (segLength : ℝ) (nSegments : ℕ) : Filament :=
  { f with dir := u,
           points := (List.range (nSegments + 1)).map
             (fun k => f.p0 + ((k : ℝ) * segLength) • u) }

/-- `IterativeWake.set_filament_direction` (`wake.py` lines 333–349): point each
filament along the local freestream-plus-rotation direction. -/
def setFilamentDirectionIter (w : IterativeWake) (vInf omega : Vec3) : IterativeWake :=
  { w with filaments := w.filaments.map (fun f =>
      let u0 := vInf - Vec3.cross omega f.p0
      filamentInitPoints f (((Vec3.norm u0)⁻¹) • u0) w.l w.nSegments) }

/-- The mu-weighted scatter of one filament's influence in
`_get_velocity_from_other_filaments_and_edges` (`wake.py` lines 542–552). -/
def filamentMuDelta (f : Filament) (mu : ℕ → ℝ) (v : Vec3) : Vec3 :=
  (if f.outboundPanels ≠ [] then
      (-(mu (f.outboundPanels.getD 0 0))) • v + (mu (f.outboundPanels.getD 1 0)) • v
    else 0) +
  (if f.inboundPanels ≠ [] then
      (mu (f.inboundPanels.getD 0 0)) • v + (-(mu (f.inboundPanels.getD 1 0))) • v
    else 0)

/-- The mu-weighted Kutta-edge term of
`_get_velocity_from_other_filaments_and_edges` (`wake.py` lines 554–565). -/
def edgeMuDelta (e : KuttaEdge) (mu : ℕ → ℝ) (p : Vec3) : Vec3 :=
  (-(mu e.panels.1)) • kuttaEdgeVortexInfluence e p +
    (mu e.panels.2) • kuttaEdgeVortexInfluence e p

/-- Index-carrying map (numpy row enumeration). -/
def mapIdxGo {α β : Type} (g : ℕ → α → β) : ℕ → List α → List β
  | _, [] => []
  | k, a :: as => g k a :: mapIdxGo g (k + 1) as

/-- `IterativeWake._get_velocity_from_other_filaments_and_edges`
(`wake.py` lines 527–567): the velocity at the point in slot `j` induced by
every filament other than `j` (mu-weighted) plus every Kutta edge
(mu-weighted). -/
def othersVelocity (w : IterativeWake) (mu : ℕ → ℝ) (pts : ℕ → Vec3) (j : ℕ) : Vec3 :=
  (mapIdxGo
      (fun i f => if i = j then 0 else filamentMuDelta f mu (filamentGetInfluence f (pts j)))
      0 w.filaments).foldl (· + ·) 0 +
    (w.kuttaEdges.map (fun e => edgeMuDelta e mu (pts j))).foldl (· + ·) 0

/-- `v0` of `IterativeWake.update` (`wake.py` lines 496–498): body-induced plus
freestream plus rigid rotation `−ω×x` plus the other-filament/edge influence. -/
def stepVelocity (w : IterativeWake) (body : Vec3 → Vec3) (mu : ℕ → ℝ)
    (vInf omega : Vec3) (pts : ℕ → Vec3) (j : ℕ) : Vec3 :=
  body (pts j) + vInf - Vec3.cross omega (pts j) + othersVelocity w mu pts j

/-- `v1` of the corrector in `IterativeWake.update` (`wake.py` lines 506–508):
body-induced plus freestream plus the other-filament/edge influence — the
rigid-rotation term of `v0` is absent here. -/
def correctorVelocity (w : IterativeWake) (body : Vec3 → Vec3) (mu : ℕ → ℝ)
    (vInf : Vec3) (pts : ℕ → Vec3) (j : ℕ) : Vec3 :=
  body (pts j) + vInf + othersVelocity w mu pts j

/-- `curr + l·v/|v|` (`wake.py` lines 501 and 512). -/
def advanceFrom (l : ℝ) (curr v : ℕ → Vec3) (j : ℕ) : Vec3 :=
  curr j + (l / Vec3.norm (v j)) • v j

/-- The corrector loop of `IterativeWake.update` (`wake.py` lines 503–512):
re-evaluate the velocity at the predicted points, average with `v0`, and
advance again from the step-start points. -/
def correctorSteps (w : IterativeWake) (body : Vec3 → Vec3) (mu : ℕ → ℝ) (vInf : Vec3)
    (curr v0 : ℕ → Vec3) : ℕ → (ℕ → Vec3) → ℕ → Vec3
  | 0, next => next
  | k + 1, next =>
    correctorSteps w body mu vInf curr v0 k
      (advanceFrom w.l curr
        (fun j => (0.5 : ℝ) • (v0 j + correctorVelocity w body mu vInf next j)))

/-- One downstream station of `IterativeWake.update` (`wake.py` lines 494–512):
predictor advance along `v0`, then the configured corrector iterations. -/
def stationStep (w : IterativeWake) (body : Vec3 → Vec3) (mu : ℕ → ℝ) (vInf omega : Vec3)
    (curr : ℕ → Vec3) : ℕ → Vec3 :=
  let v0 := stepVelocity w body mu vInf omega curr
  correctorSteps w body mu vInf curr v0 w.correctorIterations (advanceFrom w.l curr v0)

/-- The successive downstream stations visited by `IterativeWake.update`. -/
def stationsFrom (w : IterativeWake) (body : Vec3 → Vec3) (mu : ℕ → ℝ)
    (vInf omega : Vec3) : (ℕ → Vec3) → ℕ → List (ℕ → Vec3)
  | _, 0 => []
  | curr, n + 1 =>
    let nl := stationStep w body mu vInf omega curr
    nl :: stationsFrom w body mu vInf omega nl n

/-- The relaxation start points `p0 + 0.01·dir` (`wake.py` lines 486–488,
"offset slightly from origin to avoid singularities"). -/
def startLocs (w : IterativeWake) (j : ℕ) : Vec3 :=
  (w.filaments.getD j default).p0 + (0.01 : ℝ) • (w.filaments.getD j default).dir

/-- `IterativeWake.update` (`wake.py` lines 458–524): march every filament
through `N_segments` stations with the predictor–corrector scheme and store the
new locations into `points[1:]` of each filament. -/
def updateWake (w : IterativeWake) (body : Vec3 → Vec3) (mu : ℕ → ℝ)
    (vInf omega : Vec3) : IterativeWake :=
  let stations := stationsFrom w body mu vInf omega (startLocs w) w.nSegments
  let newFilaments := mapIdxGo
    (fun j f => { f with points := f.points.take 1 ++ stations.map (fun s => s j) })
    0 w.filaments
  { w with filaments := newFilaments }

/-- A sequence of `update` calls with per-call arguments
`(velocity_from_body, mu, v_inf, omega)`. -/
def iterateUpdate (w : IterativeWake)
    (args : ℕ → (Vec3 → Vec3) × (ℕ → ℝ) × Vec3 × Vec3) : ℕ → IterativeWake
  | 0 => w
  | n + 1 =>
    updateWake (iterateUpdate w args n) (args n).1 (args n).2.1 (args n).2.2.1 (args n).2.2.2

/-- The vertex-index sharing test of `Mesh._determine_panel_adjacency_mapping`
(`mesh.py` lines 430–432): some vertex index of the first panel occurs in the
second panel's index list. -/
def panelsShareVertex (pa pb : List ℕ) : Bool := pa.any (fun v => pb.contains v)

/-- Sharing of at least one vertex index between panels `m` and `k` of a mesh
given by its per-panel vertex-index lists. -/
def sharesIdx (pvi : List (List ℕ)) (m k : ℕ) : Prop :=
  panelsShareVertex (pvi.getD m []) (pvi.getD k []) = true

/-- Specification predicate: the unordered panel pair `{m, k}` has already been
visited by the adjacency double loop when row `i` is being processed and the
inner index has reached `a`. -/
def pairDone (i a m k : ℕ) : Prop := min m k < i ∨ (min m k = i ∧ max m k < a)

/-- One inner-loop step of `Mesh._determine_panel_adjacency_mapping`
(`mesh.py` lines 426–435): if panels `i` and `j` share a vertex index and `j`
is not yet recorded for `i`, append `j` to row `i` and `i` to row `j`. -/
def adjacencyStep (pvi : List (List ℕ)) (i : ℕ) (acc : ℕ → List ℕ) (j : ℕ) :
    ℕ → List ℕ :=
  if panelsShareVertex (pvi.getD i []) (pvi.getD j []) = true ∧ j ∉ acc i then
    fun k => if k = i then acc i ++ [j] else if k = j then acc j ++ [i] else acc k
  else acc

/-- The inner loop over `j ∈ (i+1, N)` of
`Mesh._determine_panel_adjacency_mapping`. -/
def adjacencyRow (pvi : List (List ℕ)) (i : ℕ) (adj : ℕ → List ℕ) : ℕ → List ℕ :=
  (List.range' (i + 1) (pvi.length - (i + 1))).foldl (adjacencyStep pvi i) adj

/-- `Mesh._determine_panel_adjacency_mapping` (`mesh.py` lines 416–438): the
double loop over panel pairs, building each panel's adjacency list. -/
def adjacencyMap (pvi : List (List ℕ)) : ℕ → List ℕ :=
  (List.range pvi.length).foldl (fun acc i => adjacencyRow pvi i acc) (fun _ => [])

/-- The vertex-coincidence test of `Mesh._find_kutta_edges`
(`mesh.py` lines 324–326): `norm(vi − vj) < 1e-10`. -/
def coincides (v w : Vec3) : Prop := Vec3.norm (v - w) < 1e-10

/-- The inner loop of the vertex matching in `Mesh._find_kutta_edges`
(`mesh.py` lines 320–339), scanning panel j's vertices against the fixed
vertex `vi` of panel i sitting at ring position `a`: the first coincidence
records `(ii0, v0)`; once a pair is recorded, the next coincidence emits the
edge — oriented by `ii − ii0 == 1` — and breaks out of the inner loop. -/
def kuttaInnerScan (vi : Vec3) (a i j : ℕ) :
    Option (ℕ × Vec3) → List Vec3 → Option (ℕ × Vec3) × List KuttaEdge
  | st, [] => (st, [])
  | none, w :: rest =>
    if coincides vi w then kuttaInnerScan vi a i j (some (a, vi)) rest
    else kuttaInnerScan vi a i j none rest
  | some (a0, v0), w :: rest =>
    if coincides vi w then
      (some (a0, v0), [if a - a0 = 1 then ⟨v0, vi, (i, j)⟩ else ⟨vi, v0, (i, j)⟩])
    else kuttaInnerScan vi a i j (some (a0, v0)) rest

/-- The outer loop of the vertex matching in `Mesh._find_kutta_edges`
(`mesh.py` lines 321–339): walk panel i's ring, carrying the first-match state
across positions and collecting the emitted edges. -/
def kuttaOuterScan (i j : ℕ) (pj : List Vec3) :
    ℕ → Option (ℕ × Vec3) → List Vec3 → List KuttaEdge
  | _, _, [] => []
  | a, st, vi :: rest =>
    (kuttaInnerScan vi a i j st pj).2 ++
      kuttaOuterScan i j pj (a + 1) (kuttaInnerScan vi a i j st pj).1 rest

/-- The Kutta edges produced from one discontinuous adjacent panel pair. -/
def kuttaEdgesFromPair (ringi ringj : List Vec3) (i j : ℕ) : List KuttaEdge :=
  kuttaOuterScan i j ringj 0 none ringi

/-- A mesh for the topology routines: the deduplicated vertex pool, the
per-panel vertex-index rings and the per-panel normals. -/
structure PanelMesh where
  vertices : List Vec3
  panelIdx : List (List ℕ)
  normals : List Vec3

/-- The vertex-position ring of panel `i` (`panel.vertices` in `mesh.py`). -/
def panelRing (m : PanelMesh) (i : ℕ) : List Vec3 :=
  (m.panelIdx.getD i []).map (fun k => m.vertices.getD k 0)

/-- The dihedral test `theta > theta_K` of `Mesh._find_kutta_edges`
(`mesh.py` lines 292–297), with `theta = |arccos(n_i · n_j)|` and `thetaK` in
radians. -/
def angleGreater (m : PanelMesh) (thetaK : ℝ) (i j : ℕ) : Prop :=
  |Real.arccos (Vec3.dot (m.normals.getD i 0) (m.normals.getD j 0))| > thetaK

/-- The edge-collection double loop of `Mesh._find_kutta_edges`
(`mesh.py` lines 298–339): rows restricted to panels with at least one
discontinuous partner, inner loop over the adjacency list skipping `j ≤ i`,
vertex matching on discontinuous pairs.  `thetaK` is in radians. -/
def findKuttaEdgesGiven (m : PanelMesh) (thetaK : ℝ) : List KuttaEdge :=
  (List.range m.panelIdx.length).foldl
    (fun acc i =>
      if ∃ k, k < m.panelIdx.length ∧ angleGreater m thetaK i k then
        (adjacencyMap m.panelIdx i).foldl
          (fun acc2 j =>
            if j ≤ i then acc2
            else if angleGreater m thetaK i j then
              acc2 ++ kuttaEdgesFromPair (panelRing m i) (panelRing m j) i j
            else acc2)
          acc
      else acc)
    []

/-- `Mesh._find_kutta_edges` (`mesh.py` lines 278–356): with no `kutta_angle`
supplied, `N_edges = 0` and no `kutta_edges` attribute is created (modelled as
`none`); with an angle (degrees), convert via `np.radians` and collect the
edges, storing their count. -/
def findKuttaEdges (m : PanelMesh) (thetaDeg : Option ℝ) : Option (List KuttaEdge) × ℕ :=
  match thetaDeg with
  | none => (none, 0)
  | some d =>
    let es := findKuttaEdgesGiven m (d * Real.pi / 180)
    (some es, es.length)

/-- Two unit-square panels folded to a 90° dihedral, sharing the mesh vertices
`1` and `2`: panel 0 in the z=0 plane (normal +z), panel 1 in the x=1 plane
(normal +x). -/
def foldedMesh : PanelMesh :=
  ⟨[⟨0, 0, 0⟩, ⟨1, 0, 0⟩, ⟨1, 1, 0⟩, ⟨0, 1, 0⟩, ⟨1, 1, -1⟩, ⟨1, 0, -1⟩],
    [[0, 1, 2, 3], [1, 2, 4, 5]],
    [⟨0, 0, 1⟩, ⟨1, 0, 0⟩]⟩

/-- The single Kutta edge of `foldedMesh`: the shared vertices in panel 0's
winding order, bracketed by panels 0 and 1. -/
def foldedKuttaEdge : KuttaEdge := ⟨⟨1, 0, 0⟩, ⟨1, 1, 0⟩, (0, 1)⟩

/-- Whether column `q` is one of the two bracketing-panel columns written by
edge `e` in the assignment loop of `get_influence_matrix`. -/
def edgeColumnHit (q : ℕ) (e : KuttaEdge) : Bool :=
  q == e.panels.2 || q == e.panels.1

/-- The value left in entry `(pt, q)` by the edge-assignment loop: the signed
influence of the LAST edge in the list that writes column `q`, or `none` when
no edge writes it.  This captures the `=` (overwrite) semantics of
`wake.py` lines 235–236. -/
def lastEdgeWrite (points : List Vec3) (pt q : ℕ) (edges : List KuttaEdge) : Option Vec3 :=
  match edges.reverse.find? (edgeColumnHit q) with
  | none => none
  | some e =>
    some (if q = e.panels.2 then kuttaEdgeVortexInfluence e (points.getD pt 0)
      else -(kuttaEdgeVortexInfluence e (points.getD pt 0)))

/-- A second concrete Kutta edge, sharing bracketing panel `1` with
`exampleEdgeC2`: vertices `(0,1,0)` and `(1,1,0)`, panels `1` and `2`. -/
def exampleEdgeB1 : KuttaEdge := ⟨⟨0, 1, 0⟩, ⟨1, 1, 0⟩, (1, 2)⟩

/-- The wake produced by `NonIterativeWake.__init__` from the two-edge list
`[exampleEdgeC2, exampleEdgeB1]` with type `"freestream"` (directions still
zero-initialized). -/
def exampleWakeC1 : NonIterativeWake :=
  ⟨[exampleEdgeC2, exampleEdgeB1], "freestream",
    [⟨0, 0, 0⟩, ⟨0, 1, 0⟩, ⟨1, 0, 0⟩, ⟨1, 1, 0⟩],
    [[0, 1], [1, 2], [], []], [[], [], [0, 1], [1, 2]],
    [0, 0, 0, 0], none⟩

/-- A concrete one-filament relaxed wake used to witness the update theorems. -/
def exampleIterWake : IterativeWake :=
  ⟨[exampleEdgeC2], 1, 1, 0,
    [⟨⟨0, 0, 0⟩, ⟨0, 0, 1⟩, [⟨0, 0, 0⟩, ⟨0, 0, 1⟩], [0, 1], [], false⟩]⟩

/-- A concrete one-filament wake whose filament direction already points along
the downstream freestream `(0,0,-1)`, with one segment of length 1, no
corrector iterations, and initial points `[origin, origin + l*(0,0,-1)]`. -/
def exampleIterWakeC6 : IterativeWake :=
  ⟨[exampleEdgeC2], 1, 1, 0,
    [⟨⟨0, 0, 0⟩, ⟨0, 0, -1⟩, [⟨0, 0, 0⟩, ⟨0, 0, -1⟩], [0, 1], [], false⟩]⟩

/-! ## Theorems -/

namespace Vec3

@[simp] theorem zero_x : (0 : Vec3).x = 0 := rfl
@[simp] theorem zero_y : (0 : Vec3).y = 0 := rfl
@[simp] theorem zero_z : (0 : Vec3).z = 0 := rfl
@[simp] theorem add_x (a b : Vec3) : (a + b).x = a.x + b.x := rfl
@[simp] theorem add_y (a b : Vec3) : (a + b).y = a.y + b.y := rfl
@[simp] theorem add_z (a b : Vec3) : (a + b).z = a.z + b.z := rfl
@[simp] theorem sub_x (a b : Vec3) : (a - b).x = a.x - b.x := rfl
@[simp] theorem sub_y (a b : Vec3) : (a - b).y = a.y - b.y := rfl
@[simp] theorem sub_z (a b : Vec3) : (a - b).z = a.z - b.z := rfl
@[simp] theorem neg_x (a : Vec3) : (-a).x = -a.x := rfl
@[simp] theorem neg_y (a : Vec3) : (-a).y = -a.y := rfl
@[simp] theorem neg_z (a : Vec3) : (-a).z = -a.z := rfl
@[simp] theorem smul_x (c : ℝ) (a : Vec3) : (c • a).x = c * a.x := rfl
@[simp] theorem smul_y (c : ℝ) (a : Vec3) : (c • a).y = c * a.y := rfl
@[simp] theorem smul_z (c : ℝ) (a : Vec3) : (c • a).z = c * a.z := rfl
@[simp] theorem mk_x (a b c : ℝ) : (Vec3.mk a b c).x = a := rfl
@[simp] theorem mk_y (a b c : ℝ) : (Vec3.mk a b c).y = b := rfl
@[simp] theorem mk_z (a b c : ℝ) : (Vec3.mk a b c).z = c := rfl
@[simp] theorem cross_x (a b : Vec3) : (cross a b).x = a.y * b.z - a.z * b.y := rfl
@[simp] theorem cross_y (a b : Vec3) : (cross a b).y = a.z * b.x - a.x * b.z := rfl
@[simp] theorem cross_z (a b : Vec3) : (cross a b).z = a.x * b.y - a.y * b.x := rfl

@[simp] theorem add_zero' (a : Vec3) : a + 0 = a := by ext <;> simp
@[simp] theorem zero_add' (a : Vec3) : 0 + a = a := by ext <;> simp
@[simp] theorem zero_smul' (a : Vec3) : (0 : ℝ) • a = 0 := by ext <;> simp
@[simp] theorem smul_zero' (c : ℝ) : c • (0 : Vec3) = 0 := by ext <;> simp
@[simp] theorem neg_zero' : -(0 : Vec3) = 0 := by ext <;> simp
@[simp] theorem sub_zero' (a : Vec3) : a - 0 = a := by ext <;> simp
@[simp] theorem add_neg_cancel' (a : Vec3) : a + -a = 0 := by ext <;> simp
@[simp] theorem cross_zero_left (b : Vec3) : cross 0 b = 0 := by ext <;> simp [cross]

theorem norm_nonneg' (a : Vec3) : 0 ≤ norm a := Real.sqrt_nonneg _

end Vec3

/-- C3: the semi-infinite straight-filament influence computed by
`NonIterativeWake.get_influence_matrix` equals the spec formula
`(1/4π)·(u×r)/(|r|·(|r|−u·r))`; and for a unit filament along +x from the
origin and field point `(0,1,0)` the velocity has zero x-component and
magnitude `1/(4π)`. -/
theorem C3_semi_infinite_filament_kernel :
    (∀ u o p : Vec3, filamentInfluenceKernel u o p = specSemiInfiniteFilament u o p) ∧
    (filamentInfluenceKernel ⟨1, 0, 0⟩ ⟨0, 0, 0⟩ ⟨0, 1, 0⟩).x = 0 ∧
    Vec3.norm (filamentInfluenceKernel ⟨1, 0, 0⟩ ⟨0, 0, 0⟩ ⟨0, 1, 0⟩) = 1 / (4 * Real.pi) := by
  have hπ : (Real.pi : ℝ) ≠ 0 := Real.pi_ne_zero
  have hπpos : (0 : ℝ) < Real.pi := Real.pi_pos
  have key : ∀ d c : ℝ, 0.25 / Real.pi / d * c = 1 / (4 * Real.pi) * (1 / d * c) := by
    intro d c
    have h4 : (0.25 : ℝ) = 4⁻¹ := by norm_num
    rw [h4, div_eq_mul_inv, div_eq_mul_inv, one_div, one_div, mul_inv]
    ring
  refine ⟨?_, ?_, ?_⟩
  · intro u o p
    ext <;>
      simp only [filamentInfluenceKernel, specSemiInfiniteFilament, Vec3.smul_x, Vec3.smul_y,
        Vec3.smul_z] <;>
      exact key _ _
  · simp only [filamentInfluenceKernel, Vec3.smul_x]
    simp [Vec3.cross, Vec3.dot, Vec3.norm]
  · have hval : filamentInfluenceKernel ⟨1, 0, 0⟩ ⟨0, 0, 0⟩ ⟨0, 1, 0⟩ =
        ⟨0, 0, 0.25 / Real.pi⟩ := by
      ext <;>
        simp [filamentInfluenceKernel, Vec3.cross, Vec3.dot, Vec3.norm]
    rw [hval]
    have hnn : (0 : ℝ) ≤ 0.25 / Real.pi := by positivity
    simp only [Vec3.norm, Vec3.mk_x, Vec3.mk_y, Vec3.mk_z]
    rw [show (0 : ℝ) ^ 2 + 0 ^ 2 + (0.25 / Real.pi) ^ 2 = (0.25 / Real.pi) ^ 2 by ring,
      Real.sqrt_sq hnn]
    field_simp
    ring

theorem kuttaVertexList_length (edges : List KuttaEdge) :
    (kuttaVertexList edges).length = 2 * edges.length := by
  induction edges with
  | nil => rfl
  | cons e es ih => simp only [kuttaVertexList, List.foldr_cons, List.length_cons] at *; omega

set_option maxRecDepth 4000 in
theorem scanRolesGo_cases (edges : List KuttaEdge) (i : ℕ) :
    ∀ (l : List ℕ) (j : ℕ) (st : List ℕ × List ℕ), j + l.length ≤ 2 * edges.length →
      ((scanRolesGo edges i j l st).1 = st.1 ∨
        ∃ e ∈ edges, (scanRolesGo edges i j l st).1 = panelsOf e) ∧
      ((scanRolesGo edges i j l st).2 = st.2 ∨
        ∃ e ∈ edges, (scanRolesGo edges i j l st).2 = panelsOf e) := by
  intro l
  induction l with
  | nil =>
    intro j st _
    exact ⟨Or.inl rfl, Or.inl rfl⟩
  | cons ind rest ih =>
    intro j st h
    obtain ⟨ip, op⟩ := st
    simp only [List.length_cons] at h
    have hb : j + 1 + rest.length ≤ 2 * edges.length := by omega
    have hmem : edges.getD (j / 2) default ∈ edges := by
      have hlt : j / 2 < edges.length := by omega
      rw [List.getD_eq_getElem edges default hlt]
      exact List.getElem_mem hlt
    simp only [scanRolesGo]
    by_cases hii : ind = i
    · by_cases hj2 : j % 2 = 0
      · simp only [hii, if_pos rfl, hj2, if_pos rfl]
        have hrec := ih (j + 1) (panelsOf (edges.getD (j / 2) default), op) hb
        refine ⟨?_, hrec.2⟩
        rcases hrec.1 with h1 | h1
        · exact Or.inr ⟨_, hmem, h1⟩
        · exact Or.inr h1
      · simp only [hii, if_pos rfl, if_neg hj2]
        have hrec := ih (j + 1) (ip, panelsOf (edges.getD (j / 2) default)) hb
        refine ⟨hrec.1, ?_⟩
        rcases hrec.2 with h1 | h1
        · exact Or.inr ⟨_, hmem, h1⟩
        · exact Or.inr h1
    · simp only [if_neg hii]
      exact ih (j + 1) (ip, op) hb

theorem arrangeKuttaVertices_roles_cases {edges : List KuttaEdge} {v : List Vec3}
    {inb outb : List (List ℕ)}
    (h : arrangeKuttaVertices edges = some (v, inb, outb)) :
    (∀ l ∈ inb, l = [] ∨ ∃ e ∈ edges, l = panelsOf e) ∧
    (∀ l ∈ outb, l = [] ∨ ∃ e ∈ edges, l = panelsOf e) := by
  unfold arrangeKuttaVertices at h
  split at h
  · cases h
  · simp only [Option.some.injEq, Prod.mk.injEq] at h
    obtain ⟨hv, hinb, houtb⟩ := h
    have hinv : ((kuttaVertexList edges).map
        (fun v => indexOfVec v (dedupAdjacent (sortLex (kuttaVertexList edges))))).length =
        2 * edges.length := by
      rw [List.length_map, kuttaVertexList_length]
    constructor
    · intro l hl
      rw [← hinb] at hl
      simp only [List.map_map, List.mem_map] at hl
      obtain ⟨i, _, hl⟩ := hl
      have := (scanRolesGo_cases edges i _ 0 ([], []) (by rw [hinv]; omega)).1
      rcases this with h0 | ⟨e, he, he'⟩
      · left; rw [← hl]; exact h0
      · right; exact ⟨e, he, by rw [← hl]; exact he'⟩
    · intro l hl
      rw [← houtb] at hl
      simp only [List.map_map, List.mem_map] at hl
      obtain ⟨i, _, hl⟩ := hl
      have := (scanRolesGo_cases edges i _ 0 ([], []) (by rw [hinv]; omega)).2
      rcases this with h0 | ⟨e, he, he'⟩
      · left; rw [← hl]; exact h0
      · right; exact ⟨e, he, by rw [← hl]; exact he'⟩

theorem mkNonIterativeWake_fields {edges : List KuttaEdge} {t : String}
    {d nd : Option Vec3} {w : NonIterativeWake}
    (h : mkNonIterativeWake edges t d nd = Except.ok w) :
    w.kuttaEdges = edges ∧
    arrangeKuttaVertices edges = some (w.vertices, w.inboundPanels, w.outboundPanels) := by
  unfold mkNonIterativeWake at h
  cases harr : arrangeKuttaVertices edges with
  | none => rw [harr] at h; cases h
  | some trip =>
    obtain ⟨v, inb, outb⟩ := trip
    rw [harr] at h
    simp only at h
    repeat' split at h
    all_goals injection h
    all_goals subst_vars
    all_goals exact ⟨rfl, rfl⟩

theorem scatterOne_pair_sum (V : ℕ → Vec3) (inb outb : List ℕ) (M : ℕ → ℕ → Vec3)
    (p q pt : ℕ) (hpq : p ≠ q)
    (hin : inb = [] ∨ inb = [p, q]) (hout : outb = [] ∨ outb = [p, q]) :
    scatterOne V inb outb M pt p + scatterOne V inb outb M pt q = M pt p + M pt q := by
  have hqp : q ≠ p := Ne.symm hpq
  rcases hin with hin | hin <;> rcases hout with hout | hout <;> subst hin <;> subst hout
  · simp [scatterOne]
  · have h1 : scatterOne V [] [p, q] M pt p = M pt p + -(V pt) := by
      simp [scatterOne, addCol, hpq]
    have h2 : scatterOne V [] [p, q] M pt q = M pt q + V pt := by
      simp [scatterOne, addCol, hqp]
    rw [h1, h2]; ext <;> simp <;> ring
  · have h1 : scatterOne V [p, q] [] M pt p = M pt p + V pt := by
      simp [scatterOne, addCol, hpq]
    have h2 : scatterOne V [p, q] [] M pt q = M pt q + -(V pt) := by
      simp [scatterOne, addCol, hqp]
    rw [h1, h2]; ext <;> simp <;> ring
  · have h1 : scatterOne V [p, q] [p, q] M pt p = M pt p + -(V pt) + V pt := by
      simp [scatterOne, addCol, hpq]
    have h2 : scatterOne V [p, q] [p, q] M pt q = M pt q + V pt + -(V pt) := by
      simp [scatterOne, addCol, hqp]
    rw [h1, h2]; ext <;> simp

theorem filamentScatter_pair_sum (points verts dirs : List Vec3)
    (inb outb : List (List ℕ)) (M : ℕ → ℕ → Vec3) (p q pt : ℕ) (hpq : p ≠ q)
    (hin : ∀ l ∈ inb, l = [] ∨ l = [p, q]) (hout : ∀ l ∈ outb, l = [] ∨ l = [p, q]) :
    filamentScatter points verts dirs inb outb M pt p +
      filamentScatter points verts dirs inb outb M pt q = M pt p + M pt q := by
  have hin' : ∀ i : ℕ, inb.getD i [] = [] ∨ inb.getD i [] = [p, q] := by
    intro i
    by_cases hi : i < inb.length
    · rw [List.getD_eq_getElem inb [] hi]
      exact hin _ (List.getElem_mem hi)
    · rw [List.getD_eq_default inb [] (by omega)]
      exact Or.inl rfl
  have hout' : ∀ i : ℕ, outb.getD i [] = [] ∨ outb.getD i [] = [p, q] := by
    intro i
    by_cases hi : i < outb.length
    · rw [List.getD_eq_getElem outb [] hi]
      exact hout _ (List.getElem_mem hi)
    · rw [List.getD_eq_default outb [] (by omega)]
      exact Or.inl rfl
  unfold filamentScatter
  generalize List.range verts.length = L
  induction L generalizing M with
  | nil => simp
  | cons a L ih =>
    simp only [List.foldl_cons]
    rw [ih]
    exact scatterOne_pair_sum _ _ _ _ _ _ _ hpq (hin' a) (hout' a)

/-- C2: for a wake built by `NonIterativeWake.__init__` from a single Kutta
edge whose two bracketing panels are distinct, every row of
`get_influence_matrix` sums to the zero vector over the two bracketing
columns — the edge writes `−V`/`+V` and each trailing-vertex filament
scatter-adds exactly opposite vectors on the pair; and, for a single trailing
filament in isolation, the scatter-add leaves the sum of the two bracketing
columns unchanged (its two contributions cancel). -/
theorem C2_antisymmetric_contributions :
    (∀ (e : KuttaEdge) (t : String) (d nd : Option Vec3) (w : NonIterativeWake),
        mkNonIterativeWake [e] t d nd = Except.ok w → e.panels.1 ≠ e.panels.2 →
        ∀ (dirs points : List Vec3) (nPanels pt : ℕ),
          getInfluenceMatrix { w with filamentDirs := dirs } points nPanels pt e.panels.1 +
            getInfluenceMatrix { w with filamentDirs := dirs } points nPanels pt e.panels.2 =
            0) ∧
    (∀ (V : ℕ → Vec3) (inb outb : List ℕ) (M : ℕ → ℕ → Vec3) (p q pt : ℕ),
        p ≠ q → (inb = [] ∨ inb = [p, q]) → (outb = [] ∨ outb = [p, q]) →
        scatterOne V inb outb M pt p + scatterOne V inb outb M pt q = M pt p + M pt q) := by
  constructor
  · intro e t d nd w hmk hpq dirs points nPanels pt
    obtain ⟨hke, harr⟩ := mkNonIterativeWake_fields hmk
    have hroles := arrangeKuttaVertices_roles_cases harr
    have hin : ∀ l ∈ w.inboundPanels, l = [] ∨ l = [e.panels.1, e.panels.2] := by
      intro l hl
      rcases hroles.1 l hl with h0 | ⟨e', he', h1⟩
      · exact Or.inl h0
      · simp only [List.mem_singleton] at he'
        subst he'
        exact Or.inr h1
    have hout : ∀ l ∈ w.outboundPanels, l = [] ∨ l = [e.panels.1, e.panels.2] := by
      intro l hl
      rcases hroles.2 l hl with h0 | ⟨e', he', h1⟩
      · exact Or.inl h0
      · simp only [List.mem_singleton] at he'
        subst he'
        exact Or.inr h1
    simp only [getInfluenceMatrix]
    rw [hke]
    rw [filamentScatter_pair_sum _ _ _ _ _ _ _ _ _ hpq hin hout]
    simp only [List.foldl_cons, List.foldl_nil, edgeAssign]
    split_ifs <;> simp_all <;> ext <;> simp
  · intro V inb outb M p q pt h1 h2 h3
    exact scatterOne_pair_sum V inb outb M p q pt h1 h2 h3

theorem arrangeExampleC2_eval :
    arrangeKuttaVertices [exampleEdgeC2] =
      some ([⟨0, 0, 0⟩, ⟨1, 0, 0⟩], [[0, 1], []], [[], [0, 1]]) := by
  have hab : vecLe ⟨0, 0, 0⟩ ⟨1, 0, 0⟩ := Or.inl (by norm_num)
  have hne : (⟨0, 0, 0⟩ : Vec3) ≠ ⟨1, 0, 0⟩ := by norm_num [Vec3.mk.injEq]
  have hsort : sortLex [⟨0, 0, 0⟩, ⟨1, 0, 0⟩] = [⟨0, 0, 0⟩, ⟨1, 0, 0⟩] := by
    simp only [sortLex, insertLex]
    rw [if_pos hab]
  have hded : dedupAdjacent [⟨0, 0, 0⟩, ⟨1, 0, 0⟩] = [⟨0, 0, 0⟩, ⟨1, 0, 0⟩] := by
    simp only [dedupAdjacent]
    rw [if_neg hne]
  have hia : indexOfVec ⟨0, 0, 0⟩ [⟨0, 0, 0⟩, ⟨1, 0, 0⟩] = 0 := by
    simp [indexOfVec]
  have hib : indexOfVec ⟨1, 0, 0⟩ [⟨0, 0, 0⟩, ⟨1, 0, 0⟩] = 1 := by
    simp [indexOfVec, Ne.symm hne]
  simp only [arrangeKuttaVertices]
  rw [if_neg (by simp : ¬([exampleEdgeC2] = []))]
  rw [show kuttaVertexList [exampleEdgeC2] = [⟨0, 0, 0⟩, ⟨1, 0, 0⟩] from rfl]
  rw [hsort, hded]
  simp only [List.map_cons, List.map_nil]
  rw [hia, hib]
  rfl

theorem mkExampleWakeC2_eval :
    mkNonIterativeWake [exampleEdgeC2] "freestream" none none = Except.ok exampleWakeC2 := by
  unfold mkNonIterativeWake
  rw [arrangeExampleC2_eval]
  rfl

/-- Witness for C2: the antisymmetry theorem applied to the concrete one-edge
wake `exampleWakeC2` and the field point `(0,2,0)`. -/
theorem C2_antisymmetric_contributions_witness :
    exampleEdgeC2.panels.1 ≠ exampleEdgeC2.panels.2 ∧
    getInfluenceMatrix { exampleWakeC2 with filamentDirs := exampleWakeC2.filamentDirs }
        [⟨0, 2, 0⟩] 2 0 exampleEdgeC2.panels.1 +
      getInfluenceMatrix { exampleWakeC2 with filamentDirs := exampleWakeC2.filamentDirs }
        [⟨0, 2, 0⟩] 2 0 exampleEdgeC2.panels.2 = 0 :=
  ⟨by decide,
    C2_antisymmetric_contributions.1 exampleEdgeC2 "freestream" none none exampleWakeC2
      mkExampleWakeC2_eval (by decide) exampleWakeC2.filamentDirs [⟨0, 2, 0⟩] 2 0⟩

/-- C10: constructing either concrete wake with an empty Kutta-edge list fails
(the vertex-arrangement step's locals are only assigned when at least one edge
exists), while any nonempty edge list arranges successfully; the zero-edge
trivial wake is the base class, whose `get_influence_matrix` returns the
scalar `0.0`. -/
theorem C10_empty_edge_wakes :
    (∀ (t : String) (d nd : Option Vec3),
        mkNonIterativeWake [] t d nd =
          Except.error "UnboundLocalError: unique_vertices referenced before assignment") ∧
    (∀ (l : ℝ) (n c : ℕ),
        mkIterativeWake [] l n c =
          Except.error "UnboundLocalError: unique_vertices referenced before assignment") ∧
    (∀ edges : List KuttaEdge, edges ≠ [] → (arrangeKuttaVertices edges).isSome = true) ∧
    (∀ (points : List Vec3) (uInf omega : Vec3),
        baseWakeGetInfluenceMatrix points uInf omega = 0) := by
  have harr : arrangeKuttaVertices [] = none := by simp [arrangeKuttaVertices]
  refine ⟨?_, ?_, ?_, ?_⟩
  · intro t d nd
    unfold mkNonIterativeWake
    rw [harr]
  · intro l n c
    unfold mkIterativeWake
    rw [harr]
  · intro edges h
    simp [arrangeKuttaVertices, h]
  · intro points uInf omega
    norm_num [baseWakeGetInfluenceMatrix]

/-- Witness for C10: both constructors fail on `[]`, the one-edge list
arranges, and the base influence is the zero scalar. -/
theorem C10_empty_edge_wakes_witness :
    mkNonIterativeWake [] "freestream" none none =
        Except.error "UnboundLocalError: unique_vertices referenced before assignment" ∧
    mkIterativeWake [] 1 20 1 =
        Except.error "UnboundLocalError: unique_vertices referenced before assignment" ∧
    [exampleEdgeC2] ≠ ([] : List KuttaEdge) ∧
    (arrangeKuttaVertices [exampleEdgeC2]).isSome = true ∧
    baseWakeGetInfluenceMatrix [] 0 0 = 0 :=
  ⟨C10_empty_edge_wakes.1 "freestream" none none,
    C10_empty_edge_wakes.2.1 1 20 1,
    by simp,
    C10_empty_edge_wakes.2.2.1 [exampleEdgeC2] (by simp),
    C10_empty_edge_wakes.2.2.2 [] 0 0⟩

theorem mapIdxGo_length {α β : Type} (g : ℕ → α → β) :
    ∀ (l : List α) (k : ℕ), (mapIdxGo g k l).length = l.length := by
  intro l
  induction l with
  | nil => intro k; rfl
  | cons a as ih => intro k; simp [mapIdxGo, ih]

theorem mapIdxGo_getD {α β : Type} [Inhabited α] [Inhabited β] (g : ℕ → α → β) :
    ∀ (l : List α) (k j : ℕ),
      (mapIdxGo g k l).getD j default =
        if j < l.length then g (k + j) (l.getD j default) else default := by
  intro l
  induction l with
  | nil => intro k j; simp [mapIdxGo]
  | cons a as ih =>
    intro k j
    cases j with
    | zero => simp [mapIdxGo]
    | succ j' =>
      simp only [mapIdxGo, List.getD_cons_succ, List.length_cons]
      rw [ih (k + 1) j']
      by_cases hj : j' < as.length
      · rw [if_pos hj, if_pos (by omega)]
        congr 1
        omega
      · rw [if_neg hj, if_neg (by omega)]

theorem updateWake_filament_getD (w : IterativeWake) (body : Vec3 → Vec3) (mu : ℕ → ℝ)
    (vInf omega : Vec3) (j : ℕ) :
    (updateWake w body mu vInf omega).filaments.getD j default =
      (if j < w.filaments.length then
        { w.filaments.getD j default with
          points := (w.filaments.getD j default).points.take 1 ++
            (stationsFrom w body mu vInf omega (startLocs w) w.nSegments).map
              (fun s => s j) }
      else default) := by
  simp only [updateWake]
  rw [mapIdxGo_getD]
  simp

theorem updateWake_filament_length (w : IterativeWake) (body : Vec3 → Vec3) (mu : ℕ → ℝ)
    (vInf omega : Vec3) :
    (updateWake w body mu vInf omega).filaments.length = w.filaments.length := by
  simp only [updateWake]
  rw [mapIdxGo_length]

theorem iterateUpdate_length (w : IterativeWake)
    (args : ℕ → (Vec3 → Vec3) × (ℕ → ℝ) × Vec3 × Vec3) :
    ∀ n, (iterateUpdate w args n).filaments.length = w.filaments.length := by
  intro n
  induction n with
  | zero => rfl
  | succ n ih => simp only [iterateUpdate]; rw [updateWake_filament_length, ih]

/-- C4: after any number of `update` calls (with arbitrary per-call body
function, doublet strengths, freestream and rotation), every filament keeps its
anchor: the `p0` field and point 0 of its point list are unchanged, and the
point list stays nonempty — `update` rewrites only `points[1:]`. -/
theorem C4_anchor_invariant :
    ∀ (w : IterativeWake) (args : ℕ → (Vec3 → Vec3) × (ℕ → ℝ) × Vec3 × Vec3),
      (∀ j : ℕ, (w.filaments.getD j default).points ≠ []) →
      ∀ (n j : ℕ),
        ((iterateUpdate w args n).filaments.getD j default).p0 =
            (w.filaments.getD j default).p0 ∧
          ((iterateUpdate w args n).filaments.getD j default).points.headD 0 =
            (w.filaments.getD j default).points.headD 0 ∧
          ((iterateUpdate w args n).filaments.getD j default).points ≠ [] := by
  intro w args hne n
  induction n with
  | zero => intro j; exact ⟨rfl, rfl, hne j⟩
  | succ n ih =>
    intro j
    simp only [iterateUpdate]
    rw [updateWake_filament_getD]
    by_cases hj : j < (iterateUpdate w args n).filaments.length
    · rw [if_pos hj]
      obtain ⟨hp0, hhead, hnonempty⟩ := ih j
      refine ⟨hp0, ?_, ?_⟩
      · cases hpts : ((iterateUpdate w args n).filaments.getD j default).points with
        | nil => exact absurd hpts hnonempty
        | cons a rest =>
          rw [hpts] at hhead
          simp only [List.headD_cons] at hhead
          simpa using hhead
      · cases hpts : ((iterateUpdate w args n).filaments.getD j default).points with
        | nil => exact absurd hpts hnonempty
        | cons a rest => simp [hpts]
    · rw [if_neg hj]
      rw [iterateUpdate_length] at hj
      rw [List.getD_eq_default _ _ (by omega : w.filaments.length ≤ j)]
      exact ⟨rfl, rfl, by simp⟩

/-- Witness for C4: two updates of the concrete wake keep filament 0 anchored. -/
theorem C4_anchor_invariant_witness :
    ((iterateUpdate exampleIterWake (fun _ => (fun _ => 0, fun _ => 0, 0, 0))
          2).filaments.getD 0 default).p0 =
        (exampleIterWake.filaments.getD 0 default).p0 ∧
      ((iterateUpdate exampleIterWake (fun _ => (fun _ => 0, fun _ => 0, 0, 0))
            2).filaments.getD 0 default).points.headD 0 =
          (exampleIterWake.filaments.getD 0 default).points.headD 0 ∧
        ((iterateUpdate exampleIterWake (fun _ => (fun _ => 0, fun _ => 0, 0, 0))
              2).filaments.getD 0 default).points ≠ [] :=
  C4_anchor_invariant exampleIterWake (fun _ => (fun _ => 0, fun _ => 0, 0, 0))
    (by
      intro j
      cases j with
      | zero => simp [exampleIterWake]
      | succ j' => simp [exampleIterWake, List.getD])
    2 0

theorem sharesIdx_symm (pvi : List (List ℕ)) (m k : ℕ) :
    sharesIdx pvi m k ↔ sharesIdx pvi k m := by
  simp only [sharesIdx, panelsShareVertex, List.any_eq_true]
  constructor <;> rintro ⟨v, h1, h2⟩ <;> exact ⟨v, by simp_all, by simp_all⟩

theorem adjacencyStep_fold_spec (pvi : List (List ℕ)) (i : ℕ) :
    ∀ (n a : ℕ) (acc : ℕ → List ℕ), a + n = pvi.length → i < a →
      (∀ k m, m ∈ acc k ↔
        k < pvi.length ∧ m < pvi.length ∧ m ≠ k ∧ sharesIdx pvi m k ∧ pairDone i a m k) →
      (∀ k, (acc k).Nodup) →
      (∀ k m, m ∈ (List.range' a n).foldl (adjacencyStep pvi i) acc k ↔
        k < pvi.length ∧ m < pvi.length ∧ m ≠ k ∧ sharesIdx pvi m k ∧
          pairDone i (a + n) m k) ∧
      (∀ k, ((List.range' a n).foldl (adjacencyStep pvi i) acc k).Nodup) := by
  intro n
  induction n with
  | zero =>
    intro a acc haN hia hmem hnd
    exact ⟨fun k m => by rw [List.range'_zero, List.foldl_nil]; exact hmem k m, fun k => hnd k⟩
  | succ n ih =>
    intro a acc haN hia hmem hnd
    have haN' : a + 1 + n = pvi.length := by omega
    have hia' : i < a + 1 := by omega
    have haNlt : a < pvi.length := by omega
    have hiNlt : i < pvi.length := by omega
    have hane : a ≠ i := by omega
    rw [List.range'_succ a n 1, List.foldl_cons]
    by_cases hsh : sharesIdx pvi i a
    · have hguard : a ∉ acc i := by
        intro hmem'
        obtain ⟨_, _, hne, _, hpd⟩ := (hmem i a).mp hmem'
        unfold pairDone at hpd
        omega
      have hstep : adjacencyStep pvi i acc a =
          fun k => if k = i then acc i ++ [a] else if k = a then acc a ++ [i] else acc k := by
        unfold adjacencyStep
        rw [if_pos ⟨hsh, hguard⟩]
      have hupd_i : adjacencyStep pvi i acc a i = acc i ++ [a] := by
        rw [hstep]
        simp
      have hupd_a : adjacencyStep pvi i acc a a = acc a ++ [i] := by
        rw [hstep]
        simp [hane]
      have hupd_o : ∀ k, k ≠ i → k ≠ a → adjacencyStep pvi i acc a k = acc k := by
        intro k h1 h2
        rw [hstep]
        simp [h1, h2]
      have hmem' : ∀ k m, m ∈ adjacencyStep pvi i acc a k ↔
          k < pvi.length ∧ m < pvi.length ∧ m ≠ k ∧ sharesIdx pvi m k ∧
            pairDone i (a + 1) m k := by
        intro k m
        by_cases hk : k = i
        · rw [hk, hupd_i]
          simp only [List.mem_append, List.mem_singleton]
          rw [hmem i m]
          constructor
          · rintro (⟨h1, h2, h3, h4, h5⟩ | hma2)
            · exact ⟨h1, h2, h3, h4, by unfold pairDone at *; omega⟩
            · rw [hma2]
              exact ⟨hiNlt, haNlt, by omega, (sharesIdx_symm pvi i a).mp hsh,
                by unfold pairDone; omega⟩
          · rintro ⟨h1, h2, h3, h4, h5⟩
            unfold pairDone at h5
            by_cases hma : max m i < a
            · exact Or.inl ⟨h1, h2, h3, h4, by unfold pairDone; omega⟩
            · right
              omega
        · by_cases hk' : k = a
          · rw [hk', hupd_a]
            simp only [List.mem_append, List.mem_singleton]
            rw [hmem a m]
            constructor
            · rintro (⟨h1, h2, h3, h4, h5⟩ | hmi2)
              · exact ⟨h1, h2, h3, h4, by unfold pairDone at *; omega⟩
              · rw [hmi2]
                exact ⟨haNlt, hiNlt, by omega, hsh, by unfold pairDone; omega⟩
            · rintro ⟨h1, h2, h3, h4, h5⟩
              unfold pairDone at h5
              by_cases hma : max m a < a
              · exact Or.inl ⟨h1, h2, h3, h4, by unfold pairDone; omega⟩
              · by_cases hmi : min m a < i
                · exact Or.inl ⟨h1, h2, h3, h4, by unfold pairDone; omega⟩
                · right
                  omega
          · rw [hupd_o k hk hk']
            rw [hmem k m]
            constructor
            · rintro ⟨h1, h2, h3, h4, h5⟩
              exact ⟨h1, h2, h3, h4, by unfold pairDone at *; omega⟩
            · rintro ⟨h1, h2, h3, h4, h5⟩
              refine ⟨h1, h2, h3, h4, ?_⟩
              unfold pairDone at h5 ⊢
              rcases h5 with h5 | ⟨h5a, h5b⟩
              · exact Or.inl h5
              · by_cases hma : max m k < a
                · exact Or.inr ⟨h5a, hma⟩
                · exfalso
                  have hcase : (m = i ∧ k = a) ∨ (m = a ∧ k = i) := by omega
                  rcases hcase with ⟨_, hk2⟩ | ⟨_, hk2⟩
                  · exact hk' hk2
                  · exact hk hk2
      have hnd' : ∀ k, (adjacencyStep pvi i acc a k).Nodup := by
        intro k
        by_cases hk : k = i
        · rw [hk, hupd_i]
          simp [List.nodup_append, hnd i, hguard]
        · by_cases hk' : k = a
          · have hnotin : i ∉ acc a := by
              intro hmem'
              obtain ⟨_, _, _, _, hpd⟩ := (hmem a i).mp hmem'
              unfold pairDone at hpd
              omega
            rw [hk', hupd_a]
            simp [List.nodup_append, hnd a, hnotin]
          · rw [hupd_o k hk hk']
            exact hnd k
      have hres := ih (a + 1) _ haN' hia' hmem' hnd'
      refine ⟨fun k m => ?_, hres.2⟩
      rw [hres.1 k m]
      have harith : a + 1 + n = a + (n + 1) := by omega
      rw [harith]
    · have hstep : adjacencyStep pvi i acc a = acc := by
        unfold adjacencyStep
        rw [if_neg]
        rintro ⟨h1, _⟩
        exact hsh h1
      rw [hstep]
      have hmem' : ∀ k m, m ∈ acc k ↔
          k < pvi.length ∧ m < pvi.length ∧ m ≠ k ∧ sharesIdx pvi m k ∧
            pairDone i (a + 1) m k := by
        intro k m
        rw [hmem]
        constructor
        · rintro ⟨h1, h2, h3, h4, h5⟩
          exact ⟨h1, h2, h3, h4, by unfold pairDone at *; omega⟩
        · rintro ⟨h1, h2, h3, h4, h5⟩
          refine ⟨h1, h2, h3, h4, ?_⟩
          unfold pairDone at h5 ⊢
          rcases h5 with h5 | ⟨h5a, h5b⟩
          · exact Or.inl h5
          · by_cases hma : max m k < a
            · exact Or.inr ⟨h5a, hma⟩
            · exfalso
              have hcase : (m = i ∧ k = a) ∨ (m = a ∧ k = i) := by omega
              rcases hcase with ⟨hm2, hk2⟩ | ⟨hm2, hk2⟩
              · rw [hm2, hk2] at h4
                exact hsh h4
              · rw [hm2, hk2] at h4
                exact hsh ((sharesIdx_symm pvi a i).mp h4)
      have hres := ih (a + 1) acc haN' hia' hmem' hnd
      refine ⟨fun k m => ?_, hres.2⟩
      rw [hres.1 k m]
      have harith : a + 1 + n = a + (n + 1) := by omega
      rw [harith]

theorem adjacencyMap_spec (pvi : List (List ℕ)) :
    ∀ n, n ≤ pvi.length →
      (∀ k m,
        m ∈ (List.range n).foldl (fun acc i => adjacencyRow pvi i acc) (fun _ => []) k ↔
          k < pvi.length ∧ m < pvi.length ∧ m ≠ k ∧ sharesIdx pvi m k ∧ min m k < n) ∧
      (∀ k,
        ((List.range n).foldl (fun acc i => adjacencyRow pvi i acc) (fun _ => []) k).Nodup) := by
  intro n
  induction n with
  | zero =>
    intro _
    constructor
    · intro k m
      simp [List.range_zero]
    · intro k
      simp [List.range_zero]
  | succ n ih =>
    intro hn
    obtain ⟨ihmem, ihnd⟩ := ih (by omega)
    rw [List.range_succ n, List.foldl_append, List.foldl_cons, List.foldl_nil]
    have hrow : ∀ adj : ℕ → List ℕ, adjacencyRow pvi n adj =
        (List.range' (n + 1) (pvi.length - (n + 1))).foldl (adjacencyStep pvi n) adj :=
      fun adj => rfl
    rw [hrow]
    have hstart : ∀ k m,
        m ∈ (List.range n).foldl (fun acc i => adjacencyRow pvi i acc) (fun _ => []) k ↔
          k < pvi.length ∧ m < pvi.length ∧ m ≠ k ∧ sharesIdx pvi m k ∧
            pairDone n (n + 1) m k := by
      intro k m
      rw [ihmem k m]
      constructor
      · rintro ⟨h1, h2, h3, h4, h5⟩
        exact ⟨h1, h2, h3, h4, by unfold pairDone; omega⟩
      · rintro ⟨h1, h2, h3, h4, h5⟩
        refine ⟨h1, h2, h3, h4, ?_⟩
        unfold pairDone at h5
        omega
    have hres := adjacencyStep_fold_spec pvi n (pvi.length - (n + 1)) (n + 1) _
      (by omega) (by omega) hstart ihnd
    refine ⟨fun k m => ?_, hres.2⟩
    rw [hres.1 k m]
    constructor
    · rintro ⟨h1, h2, h3, h4, h5⟩
      refine ⟨h1, h2, h3, h4, ?_⟩
      unfold pairDone at h5
      omega
    · rintro ⟨h1, h2, h3, h4, h5⟩
      refine ⟨h1, h2, h3, h4, ?_⟩
      unfold pairDone
      omega

/-- C9: for every mesh (given as its per-panel vertex-index lists), a panel's
adjacency list contains exactly the other panels sharing at least one vertex
index with it, the relation is symmetric, and no panel is listed twice. -/
theorem C9_panel_adjacency :
    ∀ (pvi : List (List ℕ)) (k m : ℕ),
      (m ∈ adjacencyMap pvi k ↔
          k < pvi.length ∧ m < pvi.length ∧ m ≠ k ∧ sharesIdx pvi m k) ∧
      (m ∈ adjacencyMap pvi k ↔ k ∈ adjacencyMap pvi m) ∧
      (adjacencyMap pvi k).Nodup := by
  intro pvi k m
  obtain ⟨hmem, hnd⟩ := adjacencyMap_spec pvi pvi.length (le_refl _)
  have hiff : ∀ k m, m ∈ adjacencyMap pvi k ↔
      k < pvi.length ∧ m < pvi.length ∧ m ≠ k ∧ sharesIdx pvi m k := by
    intro k m
    unfold adjacencyMap
    rw [hmem k m]
    constructor
    · rintro ⟨h1, h2, h3, h4, _⟩
      exact ⟨h1, h2, h3, h4⟩
    · rintro ⟨h1, h2, h3, h4⟩
      exact ⟨h1, h2, h3, h4, by omega⟩
  refine ⟨hiff k m, ?_, hnd k⟩
  rw [hiff k m, hiff m k]
  constructor
  · rintro ⟨h1, h2, h3, h4⟩
    exact ⟨h2, h1, Ne.symm h3, (sharesIdx_symm pvi m k).mp h4⟩
  · rintro ⟨h1, h2, h3, h4⟩
    exact ⟨h2, h1, Ne.symm h3, (sharesIdx_symm pvi k m).mp h4⟩

theorem not_coincides_of_one_le (v w : Vec3)
    (h : 1 ≤ (v.x - w.x) ^ 2 + (v.y - w.y) ^ 2 + (v.z - w.z) ^ 2) : ¬coincides v w := by
  unfold coincides Vec3.norm
  intro hlt
  have h1 : (1 : ℝ) ≤ Real.sqrt ((v - w).x ^ 2 + (v - w).y ^ 2 + (v - w).z ^ 2) := by
    rw [show (1 : ℝ) = Real.sqrt 1 from (Real.sqrt_one).symm]
    apply Real.sqrt_le_sqrt
    simpa using h
  have h2 : (1e-10 : ℝ) < 1 := by norm_num
  linarith

theorem coincides_of_eq (v w : Vec3) (h : v = w) : coincides v w := by
  subst h
  unfold coincides Vec3.norm
  have hz : (v - v).x ^ 2 + (v - v).y ^ 2 + (v - v).z ^ 2 = 0 := by
    simp
  rw [hz, Real.sqrt_zero]
  norm_num

theorem kuttaInnerScan_nomatch (vi : Vec3) (a i j : ℕ) :
    ∀ (pj : List Vec3) (st : Option (ℕ × Vec3)),
      (∀ w ∈ pj, ¬coincides vi w) → kuttaInnerScan vi a i j st pj = (st, []) := by
  intro pj
  induction pj with
  | nil =>
    intro st _
    cases st with
    | none => rfl
    | some p => obtain ⟨a0, v0⟩ := p; rfl
  | cons w rest ih =>
    intro st h
    have hw : ¬coincides vi w := h w (by simp)
    have hrest : ∀ w' ∈ rest, ¬coincides vi w' := fun w' hw' => h w' (by simp [hw'])
    cases st with
    | none =>
      simp only [kuttaInnerScan]
      rw [if_neg hw]
      exact ih none hrest
    | some p =>
      obtain ⟨a0, v0⟩ := p
      simp only [kuttaInnerScan]
      rw [if_neg hw]
      exact ih _ hrest

theorem kuttaInnerScan_set (vi : Vec3) (a i j : ℕ) :
    ∀ (P : List Vec3) (wu : Vec3) (Q : List Vec3),
      (∀ w ∈ P, ¬coincides vi w) → coincides vi wu → (∀ w ∈ Q, ¬coincides vi w) →
      kuttaInnerScan vi a i j none (P ++ wu :: Q) = (some (a, vi), []) := by
  intro P
  induction P with
  | nil =>
    intro wu Q _ hc hQ
    simp only [List.nil_append, kuttaInnerScan]
    rw [if_pos hc]
    exact kuttaInnerScan_nomatch vi a i j Q _ hQ
  | cons p P ih =>
    intro wu Q hP hc hQ
    simp only [List.cons_append, kuttaInnerScan]
    rw [if_neg (hP p (by simp))]
    exact ih wu Q (fun w hw => hP w (by simp [hw])) hc hQ

theorem kuttaInnerScan_emit (vi v0 : Vec3) (a a0 i j : ℕ) :
    ∀ (P : List Vec3) (wv : Vec3) (Q : List Vec3),
      (∀ w ∈ P, ¬coincides vi w) → coincides vi wv →
      kuttaInnerScan vi a i j (some (a0, v0)) (P ++ wv :: Q) =
        (some (a0, v0),
          [if a - a0 = 1 then ⟨v0, vi, (i, j)⟩ else ⟨vi, v0, (i, j)⟩]) := by
  intro P
  induction P with
  | nil =>
    intro wv Q _ hc
    simp only [List.nil_append, kuttaInnerScan]
    rw [if_pos hc]
  | cons p P ih =>
    intro wv Q hP hc
    simp only [List.cons_append, kuttaInnerScan]
    rw [if_neg (hP p (by simp))]
    exact ih wv Q (fun w hw => hP w (by simp [hw])) hc

theorem kuttaOuterScan_nomatch (i j : ℕ) (pj : List Vec3) :
    ∀ (ris : List Vec3) (a : ℕ) (st : Option (ℕ × Vec3)),
      (∀ x ∈ ris, ∀ w ∈ pj, ¬coincides x w) → kuttaOuterScan i j pj a st ris = [] := by
  intro ris
  induction ris with
  | nil => intro a st _; rfl
  | cons x ris ih =>
    intro a st h
    simp only [kuttaOuterScan]
    rw [kuttaInnerScan_nomatch x a i j pj st (h x (by simp))]
    simp only [List.nil_append]
    exact ih (a + 1) st (fun x' hx' => h x' (by simp [hx']))

theorem kuttaOuterScan_skip (i j : ℕ) (pj : List Vec3) :
    ∀ (A rest : List Vec3) (a : ℕ) (st : Option (ℕ × Vec3)),
      (∀ x ∈ A, ∀ w ∈ pj, ¬coincides x w) →
      kuttaOuterScan i j pj a st (A ++ rest) =
        kuttaOuterScan i j pj (a + A.length) st rest := by
  intro A
  induction A with
  | nil => intro rest a st _; simp
  | cons x A ih =>
    intro rest a st h
    simp only [List.cons_append, kuttaOuterScan]
    rw [kuttaInnerScan_nomatch x a i j pj st (h x (by simp))]
    simp only [List.nil_append, List.append_eq]
    rw [ih rest (a + 1) st (fun x' hx' => h x' (by simp [hx']))]
    rw [show a + 1 + A.length = a + (x :: A).length from by simp; omega]

/-- Orientation rule, forward case: when the only coincidences of panel i's
ring against panel j's ring sit at two consecutive ring positions, the single
emitted edge keeps panel i's winding order `(u, v)`. -/
theorem kuttaPair_forward (A B Pu Qu Pv : List Vec3) (u v wu wv : Vec3)
    (Qv : List Vec3) (pj : List Vec3) (i j : ℕ)
    (hpju : pj = Pu ++ wu :: Qu) (hpjv : pj = Pv ++ wv :: Qv)
    (hA : ∀ x ∈ A, ∀ w ∈ pj, ¬coincides x w)
    (hB : ∀ x ∈ B, ∀ w ∈ pj, ¬coincides x w)
    (hPu : ∀ w ∈ Pu, ¬coincides u w) (hwu : coincides u wu)
    (hQu : ∀ w ∈ Qu, ¬coincides u w)
    (hPv : ∀ w ∈ Pv, ¬coincides v w) (hwv : coincides v wv) :
    kuttaEdgesFromPair (A ++ u :: v :: B) pj i j = [⟨u, v, (i, j)⟩] := by
  unfold kuttaEdgesFromPair
  rw [kuttaOuterScan_skip i j pj A (u :: v :: B) 0 none hA]
  simp only [kuttaOuterScan]
  rw [hpju, kuttaInnerScan_set u (0 + A.length) i j Pu wu Qu hPu hwu hQu]
  simp only [List.nil_append]
  rw [← hpju, hpjv,
    kuttaInnerScan_emit v u (0 + A.length + 1) (0 + A.length) i j Pv wv Qv hPv hwv]
  rw [if_pos (by omega)]
  simp only [List.cons_append, List.singleton_append]
  rw [← hpjv, kuttaOuterScan_nomatch i j pj B _ _ hB]
  simp

/-- Orientation rule, reverse (wrap-around) case: when the coincidences sit at
ring position 0 and the last ring position (with at least one vertex between),
the emitted edge swaps the order to `(v, u)`. -/
theorem kuttaPair_reverse (A Pu Qu Pv : List Vec3) (u v wu wv : Vec3)
    (Qv : List Vec3) (pj : List Vec3) (i j : ℕ) (hAne : A ≠ [])
    (hpju : pj = Pu ++ wu :: Qu) (hpjv : pj = Pv ++ wv :: Qv)
    (hA : ∀ x ∈ A, ∀ w ∈ pj, ¬coincides x w)
    (hPu : ∀ w ∈ Pu, ¬coincides u w) (hwu : coincides u wu)
    (hQu : ∀ w ∈ Qu, ¬coincides u w)
    (hPv : ∀ w ∈ Pv, ¬coincides v w) (hwv : coincides v wv) :
    kuttaEdgesFromPair (u :: A ++ [v]) pj i j = [⟨v, u, (i, j)⟩] := by
  unfold kuttaEdgesFromPair
  simp only [List.cons_append, kuttaOuterScan]
  rw [hpju, kuttaInnerScan_set u 0 i j Pu wu Qu hPu hwu hQu]
  simp only [List.nil_append]
  rw [← hpju]
  simp only [List.append_eq, Nat.zero_add]
  rw [kuttaOuterScan_skip i j pj A [v] 1 _ hA]
  simp only [kuttaOuterScan]
  rw [hpjv, kuttaInnerScan_emit v u (1 + A.length) 0 i j Pv wv Qv hPv hwv]
  rw [if_neg (by
    have : A.length ≠ 0 := fun h => hAne (List.length_eq_zero.mp h)
    omega)]
  simp

theorem foldedPair_eval :
    kuttaEdgesFromPair (panelRing foldedMesh 0) (panelRing foldedMesh 1) 0 1 =
      [foldedKuttaEdge] := by
  have hr0 : panelRing foldedMesh 0 =
      [⟨0, 0, 0⟩] ++ (⟨1, 0, 0⟩ : Vec3) :: (⟨1, 1, 0⟩ : Vec3) :: [⟨0, 1, 0⟩] := rfl
  have hr1 : panelRing foldedMesh 1 =
      [⟨1, 0, 0⟩, ⟨1, 1, 0⟩, ⟨1, 1, -1⟩, ⟨1, 0, -1⟩] := rfl
  have hA : ∀ x ∈ ([⟨0, 0, 0⟩] : List Vec3),
      ∀ w ∈ ([⟨1, 0, 0⟩, ⟨1, 1, 0⟩, ⟨1, 1, -1⟩, ⟨1, 0, -1⟩] : List Vec3),
        ¬coincides x w := by
    intro x hx w hw
    simp only [List.mem_singleton] at hx
    subst hx
    simp only [List.mem_cons, List.not_mem_nil, or_false] at hw
    rcases hw with rfl | rfl | rfl | rfl <;>
      exact not_coincides_of_one_le _ _ (by norm_num)
  have hB : ∀ x ∈ ([⟨0, 1, 0⟩] : List Vec3),
      ∀ w ∈ ([⟨1, 0, 0⟩, ⟨1, 1, 0⟩, ⟨1, 1, -1⟩, ⟨1, 0, -1⟩] : List Vec3),
        ¬coincides x w := by
    intro x hx w hw
    simp only [List.mem_singleton] at hx
    subst hx
    simp only [List.mem_cons, List.not_mem_nil, or_false] at hw
    rcases hw with rfl | rfl | rfl | rfl <;>
      exact not_coincides_of_one_le _ _ (by norm_num)
  have hPu : ∀ w ∈ ([] : List Vec3), ¬coincides ⟨1, 0, 0⟩ w := by
    intro w hw
    simp at hw
  have hwu : coincides ⟨1, 0, 0⟩ ⟨1, 0, 0⟩ := coincides_of_eq _ _ rfl
  have hQu : ∀ w ∈ ([⟨1, 1, 0⟩, ⟨1, 1, -1⟩, ⟨1, 0, -1⟩] : List Vec3),
      ¬coincides ⟨1, 0, 0⟩ w := by
    intro w hw
    simp only [List.mem_cons, List.not_mem_nil, or_false] at hw
    rcases hw with rfl | rfl | rfl <;> exact not_coincides_of_one_le _ _ (by norm_num)
  have hPv : ∀ w ∈ ([⟨1, 0, 0⟩] : List Vec3), ¬coincides ⟨1, 1, 0⟩ w := by
    intro w hw
    simp only [List.mem_singleton] at hw
    subst hw
    exact not_coincides_of_one_le _ _ (by norm_num)
  have hwv : coincides ⟨1, 1, 0⟩ ⟨1, 1, 0⟩ := coincides_of_eq _ _ rfl
  have happ := kuttaPair_forward [⟨0, 0, 0⟩] [⟨0, 1, 0⟩] [] [⟨1, 1, 0⟩, ⟨1, 1, -1⟩, ⟨1, 0, -1⟩]
    [⟨1, 0, 0⟩] ⟨1, 0, 0⟩ ⟨1, 1, 0⟩ ⟨1, 0, 0⟩ ⟨1, 1, 0⟩ [⟨1, 1, -1⟩, ⟨1, 0, -1⟩]
    [⟨1, 0, 0⟩, ⟨1, 1, 0⟩, ⟨1, 1, -1⟩, ⟨1, 0, -1⟩] 0 1 rfl rfl hA hB hPu hwu hQu hPv hwv
  rw [hr0, hr1, happ]
  rfl

theorem foldedMesh_edges (theta : ℝ) (h90 : theta < 90) :
    findKuttaEdges foldedMesh (some theta) = (some [foldedKuttaEdge], 1) := by
  have hπ := Real.pi_pos
  have hradlt : theta * Real.pi / 180 < Real.pi / 2 := by nlinarith
  have habs : |Real.arccos 0| = Real.pi / 2 := by
    rw [Real.arccos_zero]
    exact abs_of_nonneg (by positivity)
  have hag01 : angleGreater foldedMesh (theta * Real.pi / 180) 0 1 := by
    unfold angleGreater
    rw [show foldedMesh.normals.getD 0 0 = ⟨0, 0, 1⟩ from rfl,
      show foldedMesh.normals.getD 1 0 = ⟨1, 0, 0⟩ from rfl,
      show Vec3.dot ⟨0, 0, 1⟩ ⟨1, 0, 0⟩ = 0 from by norm_num [Vec3.dot], habs]
    exact hradlt
  have hag10 : angleGreater foldedMesh (theta * Real.pi / 180) 1 0 := by
    unfold angleGreater
    rw [show foldedMesh.normals.getD 1 0 = ⟨1, 0, 0⟩ from rfl,
      show foldedMesh.normals.getD 0 0 = ⟨0, 0, 1⟩ from rfl,
      show Vec3.dot ⟨1, 0, 0⟩ ⟨0, 0, 1⟩ = 0 from by norm_num [Vec3.dot], habs]
    exact hradlt
  have hadj0 : adjacencyMap foldedMesh.panelIdx 0 = [1] := by rfl
  have hadj1 : adjacencyMap foldedMesh.panelIdx 1 = [0] := by rfl
  have hgiven : findKuttaEdgesGiven foldedMesh (theta * Real.pi / 180) = [foldedKuttaEdge] := by
    unfold findKuttaEdgesGiven
    rw [show List.range foldedMesh.panelIdx.length = [0, 1] from rfl]
    simp only [List.foldl_cons, List.foldl_nil]
    rw [if_pos (show ∃ k, k < foldedMesh.panelIdx.length ∧
        angleGreater foldedMesh (theta * Real.pi / 180) 0 k from ⟨1, by decide, hag01⟩)]
    rw [hadj0]
    simp only [List.foldl_cons, List.foldl_nil]
    rw [if_neg (by decide : ¬((1 : ℕ) ≤ 0)), if_pos hag01, foldedPair_eval]
    rw [if_pos (show ∃ k, k < foldedMesh.panelIdx.length ∧
        angleGreater foldedMesh (theta * Real.pi / 180) 1 k from ⟨0, by decide, hag10⟩)]
    rw [hadj1]
    simp only [List.foldl_cons, List.foldl_nil]
    rw [if_pos (by decide : (0 : ℕ) ≤ 1)]
    simp
  simp only [findKuttaEdges]
  rw [hgiven]
  rfl

/-- C7 counterexample: a supplied Kutta angle of zero does *not* produce zero
edges — on the folded two-panel mesh it produces one, since `0 is not None`
and the dihedral π/2 exceeds the zero radian threshold. -/
theorem C7_threshold_zero_counterexample :
    ¬((findKuttaEdges foldedMesh (some 0)).2 = 0) := by
  rw [foldedMesh_edges 0 (by norm_num)]
  norm_num

/-- C7 (amended): with no threshold supplied, edge extraction reports zero
Kutta edges and no edge list (the explicit absent-flag branch, never a default
numeric threshold); a *supplied* threshold of zero is treated numerically —
the 90°-folded pair yields one edge under it. -/
theorem C7_absent_threshold_no_edges :
    (∀ m : PanelMesh, findKuttaEdges m none = (none, 0)) ∧
    findKuttaEdges foldedMesh (some 0) = (some [foldedKuttaEdge], 1) := by
  constructor
  · intro m
    rfl
  · exact foldedMesh_edges 0 (by norm_num)

/-- C8: extracted Kutta edges follow the first panel's winding — if the two
matched coincident vertices sit at consecutive ring positions of panel i the
order `(first, second)` is kept, and in the wrap-around (reverse-traversal)
case the order is swapped; the 90°-folded unit squares with threshold 30°
yield exactly one edge whose vertices are shared mesh vertices 1 and 2 in
panel 0's winding order. -/
theorem C8_kutta_edge_orientation :
    (∀ (A B Pu Qu Pv : List Vec3) (u v wu wv : Vec3) (Qv pj : List Vec3) (i j : ℕ),
        pj = Pu ++ wu :: Qu → pj = Pv ++ wv :: Qv →
        (∀ x ∈ A, ∀ w ∈ pj, ¬coincides x w) →
        (∀ x ∈ B, ∀ w ∈ pj, ¬coincides x w) →
        (∀ w ∈ Pu, ¬coincides u w) → coincides u wu → (∀ w ∈ Qu, ¬coincides u w) →
        (∀ w ∈ Pv, ¬coincides v w) → coincides v wv →
        kuttaEdgesFromPair (A ++ u :: v :: B) pj i j = [⟨u, v, (i, j)⟩]) ∧
    (∀ (A Pu Qu Pv : List Vec3) (u v wu wv : Vec3) (Qv pj : List Vec3) (i j : ℕ),
        A ≠ [] → pj = Pu ++ wu :: Qu → pj = Pv ++ wv :: Qv →
        (∀ x ∈ A, ∀ w ∈ pj, ¬coincides x w) →
        (∀ w ∈ Pu, ¬coincides u w) → coincides u wu → (∀ w ∈ Qu, ¬coincides u w) →
        (∀ w ∈ Pv, ¬coincides v w) → coincides v wv →
        kuttaEdgesFromPair (u :: A ++ [v]) pj i j = [⟨v, u, (i, j)⟩]) ∧
    (findKuttaEdges foldedMesh (some 30) = (some [foldedKuttaEdge], 1) ∧
      foldedKuttaEdge.v0 = foldedMesh.vertices.getD 1 0 ∧
      foldedKuttaEdge.v1 = foldedMesh.vertices.getD 2 0) := by
  refine ⟨?_, ?_, foldedMesh_edges 30 (by norm_num), rfl, rfl⟩
  · intro A B Pu Qu Pv u v wu wv Qv pj i j h1 h2 h3 h4 h5 h6 h7 h8 h9
    exact kuttaPair_forward A B Pu Qu Pv u v wu wv Qv pj i j h1 h2 h3 h4 h5 h6 h7 h8 h9
  · intro A Pu Qu Pv u v wu wv Qv pj i j h0 h1 h2 h3 h4 h5 h6 h7 h8
    exact kuttaPair_reverse A Pu Qu Pv u v wu wv Qv pj i j h0 h1 h2 h3 h4 h5 h6 h7 h8

/-- Witness for C8: the orientation theorem applied to panel 0's actual ring
(forward, kept order) and to a wrap-around ring (reverse, swapped order),
against panel 1's ring of the folded mesh. -/
theorem C8_kutta_edge_orientation_witness :
    kuttaEdgesFromPair
        ([⟨0, 0, 0⟩] ++ (⟨1, 0, 0⟩ : Vec3) :: (⟨1, 1, 0⟩ : Vec3) :: [⟨0, 1, 0⟩])
        [⟨1, 0, 0⟩, ⟨1, 1, 0⟩, ⟨1, 1, -1⟩, ⟨1, 0, -1⟩] 0 1 =
      [⟨⟨1, 0, 0⟩, ⟨1, 1, 0⟩, (0, 1)⟩] ∧
    kuttaEdgesFromPair ((⟨1, 0, 0⟩ : Vec3) :: [⟨0, 0, 0⟩] ++ [⟨1, 1, 0⟩])
        [⟨1, 0, 0⟩, ⟨1, 1, 0⟩, ⟨1, 1, -1⟩, ⟨1, 0, -1⟩] 0 1 =
      [⟨⟨1, 1, 0⟩, ⟨1, 0, 0⟩, (0, 1)⟩] := by
  have hA : ∀ x ∈ ([⟨0, 0, 0⟩] : List Vec3),
      ∀ w ∈ ([⟨1, 0, 0⟩, ⟨1, 1, 0⟩, ⟨1, 1, -1⟩, ⟨1, 0, -1⟩] : List Vec3),
        ¬coincides x w := by
    intro x hx w hw
    simp only [List.mem_singleton] at hx
    subst hx
    simp only [List.mem_cons, List.not_mem_nil, or_false] at hw
    rcases hw with rfl | rfl | rfl | rfl <;>
      exact not_coincides_of_one_le _ _ (by norm_num)
  have hB : ∀ x ∈ ([⟨0, 1, 0⟩] : List Vec3),
      ∀ w ∈ ([⟨1, 0, 0⟩, ⟨1, 1, 0⟩, ⟨1, 1, -1⟩, ⟨1, 0, -1⟩] : List Vec3),
        ¬coincides x w := by
    intro x hx w hw
    simp only [List.mem_singleton] at hx
    subst hx
    simp only [List.mem_cons, List.not_mem_nil, or_false] at hw
    rcases hw with rfl | rfl | rfl | rfl <;>
      exact not_coincides_of_one_le _ _ (by norm_num)
  have hPu : ∀ w ∈ ([] : List Vec3), ¬coincides ⟨1, 0, 0⟩ w := by
    intro w hw
    simp at hw
  have hwu : coincides ⟨1, 0, 0⟩ ⟨1, 0, 0⟩ := coincides_of_eq _ _ rfl
  have hQu : ∀ w ∈ ([⟨1, 1, 0⟩, ⟨1, 1, -1⟩, ⟨1, 0, -1⟩] : List Vec3),
      ¬coincides ⟨1, 0, 0⟩ w := by
    intro w hw
    simp only [List.mem_cons, List.not_mem_nil, or_false] at hw
    rcases hw with rfl | rfl | rfl <;> exact not_coincides_of_one_le _ _ (by norm_num)
  have hPv : ∀ w ∈ ([⟨1, 0, 0⟩] : List Vec3), ¬coincides ⟨1, 1, 0⟩ w := by
    intro w hw
    simp only [List.mem_singleton] at hw
    subst hw
    exact not_coincides_of_one_le _ _ (by norm_num)
  have hwv : coincides ⟨1, 1, 0⟩ ⟨1, 1, 0⟩ := coincides_of_eq _ _ rfl
  constructor
  · exact C8_kutta_edge_orientation.1 [⟨0, 0, 0⟩] [⟨0, 1, 0⟩] []
      [⟨1, 1, 0⟩, ⟨1, 1, -1⟩, ⟨1, 0, -1⟩] [⟨1, 0, 0⟩] ⟨1, 0, 0⟩ ⟨1, 1, 0⟩ ⟨1, 0, 0⟩
      ⟨1, 1, 0⟩ [⟨1, 1, -1⟩, ⟨1, 0, -1⟩]
      [⟨1, 0, 0⟩, ⟨1, 1, 0⟩, ⟨1, 1, -1⟩, ⟨1, 0, -1⟩] 0 1 rfl rfl hA hB hPu hwu hQu hPv hwv
  · exact C8_kutta_edge_orientation.2.1 [⟨0, 0, 0⟩] [] [⟨1, 1, 0⟩, ⟨1, 1, -1⟩, ⟨1, 0, -1⟩]
      [⟨1, 0, 0⟩] ⟨1, 0, 0⟩ ⟨1, 1, 0⟩ ⟨1, 0, 0⟩ ⟨1, 1, 0⟩ [⟨1, 1, -1⟩, ⟨1, 0, -1⟩]
      [⟨1, 0, 0⟩, ⟨1, 1, 0⟩, ⟨1, 1, -1⟩, ⟨1, 0, -1⟩] 0 1 (by simp) rfl rfl hA hPu hwu hQu
      hPv hwv

theorem filamentMuDelta_zero (f : Filament) (v : Vec3) :
    filamentMuDelta f (fun _ => 0) v = 0 := by
  unfold filamentMuDelta
  split_ifs <;> simp

theorem edgeMuDelta_zero (e : KuttaEdge) (p : Vec3) :
    edgeMuDelta e (fun _ => 0) p = 0 := by
  unfold edgeMuDelta
  simp

theorem foldl_add_all_zero :
    ∀ (l : List Vec3) (acc : Vec3), (∀ x ∈ l, x = 0) → l.foldl (· + ·) acc = acc := by
  intro l
  induction l with
  | nil => intro acc _; rfl
  | cons x rest ih =>
    intro acc h
    rw [List.foldl_cons, h x (by simp)]
    rw [Vec3.add_zero']
    exact ih acc (fun x' hx' => h x' (by simp [hx']))

theorem mapIdxGo_mem {α β : Type} (g : ℕ → α → β) :
    ∀ (l : List α) (k : ℕ) (x : β), x ∈ mapIdxGo g k l → ∃ i a, a ∈ l ∧ x = g i a := by
  intro l
  induction l with
  | nil => intro k x hx; simp [mapIdxGo] at hx
  | cons a as ih =>
    intro k x hx
    simp only [mapIdxGo, List.mem_cons] at hx
    rcases hx with rfl | hx
    · exact ⟨k, a, by simp, rfl⟩
    · obtain ⟨i, a', ha', hx⟩ := ih (k + 1) x hx
      exact ⟨i, a', by simp [ha'], hx⟩

theorem othersVelocity_mu_zero (w : IterativeWake) (pts : ℕ → Vec3) (j : ℕ) :
    othersVelocity w (fun _ => 0) pts j = 0 := by
  unfold othersVelocity
  rw [foldl_add_all_zero _ _ ?hfil, foldl_add_all_zero _ _ ?hedge]
  · simp
  case hfil =>
    intro x hx
    obtain ⟨i, f, _, hx⟩ := mapIdxGo_mem _ _ _ _ hx
    rw [hx]
    split_ifs
    · rfl
    · exact filamentMuDelta_zero f _
  case hedge =>
    intro x hx
    simp only [List.mem_map] at hx
    obtain ⟨e, _, hx⟩ := hx
    rw [← hx]
    exact edgeMuDelta_zero e _

/-- With zero doublet strengths, zero body velocity and zero rotation, the
step-start velocity is the bare freestream. -/
theorem stepVelocity_pure_freestream (w : IterativeWake) (vInf : Vec3) (pts : ℕ → Vec3)
    (j : ℕ) :
    stepVelocity w (fun _ => 0) (fun _ => 0) vInf 0 pts j = vInf := by
  unfold stepVelocity
  rw [othersVelocity_mu_zero]
  ext <;> simp [Vec3.cross]

theorem norm_z_neg (V : ℝ) (hV : 0 < V) : Vec3.norm ⟨0, 0, -V⟩ = V := by
  unfold Vec3.norm
  rw [show (0 : ℝ) ^ 2 + 0 ^ 2 + (-V) ^ 2 = V ^ 2 from by ring, Real.sqrt_sq hV.le]

/-- The single-station pure-freestream relaxation: with one segment, zero
corrector iterations, freestream `(0,0,−V)` with `V > 0`, zero rotation, zero
doublet strengths and a zero body-velocity function, `update` replaces each
filament's trailing points by the single point
`p0 + 0.01·dir + l·(0,0,−1)` — the start point is offset by `0.01·dir`. -/
theorem updateWake_pure_freestream (w : IterativeWake) (V : ℝ) (hV : 0 < V)
    (h1 : w.nSegments = 1) (hc : w.correctorIterations = 0)
    (j : ℕ) (hj : j < w.filaments.length) :
    ((updateWake w (fun _ => 0) (fun _ => 0) ⟨0, 0, -V⟩ 0).filaments.getD j
        default).points =
      (w.filaments.getD j default).points.take 1 ++
        [(w.filaments.getD j default).p0 +
          (0.01 : ℝ) • (w.filaments.getD j default).dir + w.l • ⟨0, 0, -1⟩] := by
  rw [updateWake_filament_getD, if_pos hj]
  have hstations : stationsFrom w (fun _ => 0) (fun _ => 0) ⟨0, 0, -V⟩ 0 (startLocs w)
      w.nSegments =
      [stationStep w (fun _ => 0) (fun _ => 0) ⟨0, 0, -V⟩ 0 (startLocs w)] := by
    rw [h1]
    simp only [stationsFrom]
  rw [hstations]
  have hstep : stationStep w (fun _ => 0) (fun _ => 0) ⟨0, 0, -V⟩ 0 (startLocs w) j =
      startLocs w j + w.l • ⟨0, 0, -1⟩ := by
    unfold stationStep
    rw [hc]
    simp only [correctorSteps]
    unfold advanceFrom
    rw [stepVelocity_pure_freestream, norm_z_neg V hV]
    congr 1
    ext <;> simp <;> field_simp
  simp only [List.map_cons, List.map_nil]
  rw [hstep]
  unfold startLocs
  rfl

/-- C6: In the relaxed scenario (freestream `(0,0,−V)` with `V > 0`, zero
rotation, zero doublet strengths, zero body-induced velocity, a single
segment and no corrector iterations), `IterativeWake.update` replaces each
filament's trailing points by the single station
`p0 + 0.01·dir + l·(0,0,−1)`: the march starts from the point offset by
`0.01·dir` from the filament origin, so the trailing point is NOT
`origin + l·(0,0,−1)` as claimed — it carries the extra `0.01·dir` offset. -/
theorem C6_trailing_point_offset (w : IterativeWake) (V : ℝ) (hV : 0 < V)
    (h1 : w.nSegments = 1) (hc : w.correctorIterations = 0)
    (j : ℕ) (hj : j < w.filaments.length) :
    ((updateWake w (fun _ => 0) (fun _ => 0) ⟨0, 0, -V⟩ 0).filaments.getD j
        default).points =
      (w.filaments.getD j default).points.take 1 ++
        [(w.filaments.getD j default).p0 +
          (0.01 : ℝ) • (w.filaments.getD j default).dir + w.l • ⟨0, 0, -1⟩] :=
  updateWake_pure_freestream w V hV h1 hc j hj

/-- C6 counterexample: for the concrete relaxed wake (`l = 1`, direction
`(0,0,−1)`, origin `0`), after one update the trailing point of filament 0 is
`(0,0,−1.01)`, not `origin + l·(0,0,−1) = (0,0,−1)` as the claim states. -/
theorem C6_trailing_point_offset_counterexample :
    ((updateWake exampleIterWakeC6 (fun _ => 0) (fun _ => 0) ⟨0, 0, -1⟩ 0).filaments.getD 0
        default).points.getD 1 0 ≠
      (exampleIterWakeC6.filaments.getD 0 default).p0 +
        exampleIterWakeC6.l • (⟨0, 0, -1⟩ : Vec3) := by
  have h := updateWake_pure_freestream exampleIterWakeC6 1 (by norm_num) rfl rfl 0
    (by norm_num [exampleIterWakeC6])
  rw [h]
  intro heq
  have hz := congrArg Vec3.z heq
  simp [exampleIterWakeC6, List.getD] at hz
  norm_num at hz

/-- Witness for C6 at the concrete wake: every hypothesis holds at
`V = 1`, `j = 0`, and the conclusion follows from the theorem itself. -/
theorem C6_trailing_point_offset_witness :
    (0 : ℝ) < 1 ∧ exampleIterWakeC6.nSegments = 1 ∧
      exampleIterWakeC6.correctorIterations = 0 ∧
      0 < exampleIterWakeC6.filaments.length ∧
      ((updateWake exampleIterWakeC6 (fun _ => 0) (fun _ => 0) ⟨0, 0, -1⟩
            0).filaments.getD 0 default).points =
        (exampleIterWakeC6.filaments.getD 0 default).points.take 1 ++
          [(exampleIterWakeC6.filaments.getD 0 default).p0 +
            (0.01 : ℝ) • (exampleIterWakeC6.filaments.getD 0 default).dir +
            exampleIterWakeC6.l • ⟨0, 0, -1⟩] :=
  ⟨by norm_num, rfl, rfl, by norm_num [exampleIterWakeC6],
    C6_trailing_point_offset exampleIterWakeC6 1 (by norm_num) rfl rfl 0
      (by norm_num [exampleIterWakeC6])⟩

theorem Vec3.norm_smul_abs (c : ℝ) (a : Vec3) :
    Vec3.norm (c • a) = |c| * Vec3.norm a := by
  unfold Vec3.norm
  rw [show (c • a).x ^ 2 + (c • a).y ^ 2 + (c • a).z ^ 2 =
      c ^ 2 * (a.x ^ 2 + a.y ^ 2 + a.z ^ 2) from by simp; ring,
    Real.sqrt_mul (sq_nonneg c), Real.sqrt_sq_eq_abs]

theorem Vec3.norm_pos_of_ne (a : Vec3) (h : a ≠ 0) : 0 < Vec3.norm a := by
  unfold Vec3.norm
  apply Real.sqrt_pos.mpr
  by_contra hle
  push_neg at hle
  have hxx : a.x = 0 := by nlinarith [sq_nonneg a.x, sq_nonneg a.y, sq_nonneg a.z]
  have hyy : a.y = 0 := by nlinarith [sq_nonneg a.x, sq_nonneg a.y, sq_nonneg a.z]
  have hzz : a.z = 0 := by nlinarith [sq_nonneg a.x, sq_nonneg a.y, sq_nonneg a.z]
  exact h (by ext <;> simp [hxx, hyy, hzz])

/-- C5 (corrected): the corrector's re-evaluated velocity `v1` omits the
rigid-rotation term `−ω×x` that is part of `v0`, so it coincides with the
total step-start velocity field exactly when `ω = 0`; one corrector iteration
averages `v1` with `v0` and re-advances from the step-start point along the
averaged velocity's direction; such an advance has length `l` whenever the
velocity is nonzero and `l ≥ 0`. -/
theorem C5_corrector_recompute :
    (∀ (w : IterativeWake) (body : Vec3 → Vec3) (mu : ℕ → ℝ) (vInf : Vec3)
        (pts : ℕ → Vec3) (j : ℕ),
        correctorVelocity w body mu vInf pts j =
          stepVelocity w body mu vInf 0 pts j) ∧
      (∀ (w : IterativeWake) (body : Vec3 → Vec3) (mu : ℕ → ℝ) (vInf : Vec3)
          (curr v0 next : ℕ → Vec3) (j : ℕ),
          correctorSteps w body mu vInf curr v0 1 next j =
            curr j +
              (w.l /
                  Vec3.norm ((0.5 : ℝ) •
                    (v0 j + correctorVelocity w body mu vInf next j))) •
                ((0.5 : ℝ) • (v0 j + correctorVelocity w body mu vInf next j))) ∧
      ∀ (l : ℝ) (curr v : ℕ → Vec3) (j : ℕ), 0 ≤ l → v j ≠ 0 →
        Vec3.norm (advanceFrom l curr v j - curr j) = l := by
  refine ⟨?_, ?_, ?_⟩
  · intro w body mu vInf pts j
    unfold correctorVelocity stepVelocity
    ext <;> simp
  · intro w body mu vInf curr v0 next j
    rfl
  · intro l curr v j hl hv
    have hd : advanceFrom l curr v j - curr j = (l / Vec3.norm (v j)) • v j := by
      unfold advanceFrom
      ext <;> simp <;> ring
    rw [hd, Vec3.norm_smul_abs,
      abs_of_nonneg (div_nonneg hl (Vec3.norm_nonneg' _)),
      div_mul_cancel₀ _ (ne_of_gt (Vec3.norm_pos_of_ne _ hv))]

/-- C5 counterexample: with rotation `ω = (1,0,0)`, zero doublet strengths,
zero body velocity and freestream `(0,0,1)`, the corrector velocity at the
predicted point of the concrete wake differs from the step velocity `v0`
re-evaluated there — the corrector drops the `−ω×x` term. -/
theorem C5_corrector_recompute_counterexample :
    correctorVelocity exampleIterWake (fun _ => 0) (fun _ => 0) ⟨0, 0, 1⟩
        (advanceFrom exampleIterWake.l (startLocs exampleIterWake)
          (stepVelocity exampleIterWake (fun _ => 0) (fun _ => 0) ⟨0, 0, 1⟩ ⟨1, 0, 0⟩
            (startLocs exampleIterWake))) 0 ≠
      stepVelocity exampleIterWake (fun _ => 0) (fun _ => 0) ⟨0, 0, 1⟩ ⟨1, 0, 0⟩
        (advanceFrom exampleIterWake.l (startLocs exampleIterWake)
          (stepVelocity exampleIterWake (fun _ => 0) (fun _ => 0) ⟨0, 0, 1⟩ ⟨1, 0, 0⟩
            (startLocs exampleIterWake))) 0 := by
  have hstart : startLocs exampleIterWake 0 = ⟨0, 0, 0.01⟩ := by
    unfold startLocs
    ext <;> simp [exampleIterWake] <;> norm_num
  have hv0 : stepVelocity exampleIterWake (fun _ => 0) (fun _ => 0) ⟨0, 0, 1⟩ ⟨1, 0, 0⟩
      (startLocs exampleIterWake) 0 = ⟨0, 0.01, 1⟩ := by
    unfold stepVelocity
    rw [othersVelocity_mu_zero, hstart]
    ext <;> simp [Vec3.cross] <;> norm_num
  have hspos : 0 < Vec3.norm (⟨0, 0.01, 1⟩ : Vec3) := by
    unfold Vec3.norm
    apply Real.sqrt_pos.mpr
    norm_num
  have hv2 : (0 : Vec3) + ⟨0, 0, 1⟩ - Vec3.cross ⟨1, 0, 0⟩ ⟨0, 0, 0.01⟩ + 0 =
      (⟨0, 0.01, 1⟩ : Vec3) := by
    ext <;> simp [Vec3.cross] <;> norm_num
  have hpred : advanceFrom exampleIterWake.l (startLocs exampleIterWake)
      (fun j => 0 + (⟨0, 0, 1⟩ : Vec3) -
        Vec3.cross ⟨1, 0, 0⟩ (startLocs exampleIterWake j) + 0) 0 =
      ⟨0, (1 / Vec3.norm (⟨0, 0.01, 1⟩ : Vec3)) * 0.01,
        (0.01 : ℝ) + (1 / Vec3.norm (⟨0, 0.01, 1⟩ : Vec3)) * 1⟩ := by
    unfold advanceFrom
    rw [show exampleIterWake.l = 1 from rfl]
    simp only [hstart]
    rw [hv2]
    ext <;> simp <;> ring
  intro heq
  have hy := congrArg Vec3.y heq
  unfold correctorVelocity stepVelocity at hy
  simp only [othersVelocity_mu_zero] at hy
  rw [hpred] at hy
  simp [Vec3.cross] at hy
  nlinarith [inv_pos.mpr hspos, hy]

/-- Witness for C5: the averaged-advance length property at a concrete
velocity field, with both hypotheses discharged concretely. -/
theorem C5_corrector_recompute_witness :
    (0 : ℝ) ≤ 1 ∧ (fun _ : ℕ => (⟨0, 0, 2⟩ : Vec3)) 0 ≠ 0 ∧
      Vec3.norm (advanceFrom 1 (fun _ => 0) (fun _ : ℕ => (⟨0, 0, 2⟩ : Vec3)) 0 -
          (fun _ : ℕ => (0 : Vec3)) 0) = 1 :=
  ⟨by norm_num,
    by
      intro h
      have h2 := congrArg Vec3.z h
      norm_num at h2,
    C5_corrector_recompute.2.2 1 (fun _ => 0) (fun _ => ⟨0, 0, 2⟩) 0 (by norm_num)
      (by
        intro h
        have h2 := congrArg Vec3.z h
        norm_num at h2)⟩

theorem Vec3.add_assoc3 (a b c : Vec3) : a + b + c = a + (b + c) := by
  ext <;> simp <;> ring

theorem addCol_eq (c : ℕ) (v : ℕ → Vec3) (M : ℕ → ℕ → Vec3) (pt q : ℕ) :
    addCol c v M pt q = M pt q + (if q = c then v pt else 0) := by
  unfold addCol
  split_ifs <;> simp

theorem scatterOne_decomp (V : ℕ → Vec3) (inb outb : List ℕ) (M : ℕ → ℕ → Vec3)
    (pt q : ℕ) :
    scatterOne V inb outb M pt q = M pt q + scatterOne V inb outb (fun _ _ => 0) pt q := by
  simp only [scatterOne]
  split_ifs <;> simp only [addCol_eq] <;> (ext <;> simp <;> ring)

theorem scatterFold_decomp (points verts dirs : List Vec3) (inb outb : List (List ℕ)) :
    ∀ (L : List ℕ) (M : ℕ → ℕ → Vec3) (pt q : ℕ),
      (L.foldl
          (fun acc i =>
            scatterOne
              (fun pt' =>
                filamentInfluenceKernel (dirs.getD i 0) (verts.getD i 0) (points.getD pt' 0))
              (inb.getD i []) (outb.getD i []) acc) M) pt q =
        M pt q +
          (L.foldl
              (fun acc i =>
                scatterOne
                  (fun pt' =>
                    filamentInfluenceKernel (dirs.getD i 0) (verts.getD i 0)
                      (points.getD pt' 0))
                  (inb.getD i []) (outb.getD i []) acc) (fun _ _ => 0)) pt q := by
  intro L
  induction L with
  | nil => intro M pt q; simp
  | cons a L ih =>
    intro M pt q
    simp only [List.foldl_cons]
    rw [ih, ih ((fun acc i => scatterOne _ (inb.getD i []) (outb.getD i []) acc)
        (fun _ _ => 0) a), scatterOne_decomp, Vec3.add_assoc3]

theorem filamentScatter_decomp (points verts dirs : List Vec3)
    (inb outb : List (List ℕ)) (M : ℕ → ℕ → Vec3) (pt q : ℕ) :
    filamentScatter points verts dirs inb outb M pt q =
      M pt q + filamentScatter points verts dirs inb outb (fun _ _ => 0) pt q := by
  unfold filamentScatter
  exact scatterFold_decomp points verts dirs inb outb _ M pt q

theorem find_append_singleton {α : Type} (p : α → Bool) (l : List α) (e : α) :
    (l ++ [e]).find? p =
      match l.find? p with
      | some x => some x
      | none => if p e then some e else none := by
  induction l with
  | nil =>
    simp only [List.nil_append, List.find?]
    cases hpe : p e <;> simp
  | cons a as ih =>
    simp only [List.cons_append, List.find?]
    cases hpa : p a <;> simp [ih]

theorem edgeFold_lastWrite (points : List Vec3) :
    ∀ (edges : List KuttaEdge) (M : ℕ → ℕ → Vec3) (pt q : ℕ),
      edges.foldl (edgeAssign points) M pt q =
        (lastEdgeWrite points pt q edges).getD (M pt q) := by
  intro edges
  induction edges with
  | nil => intro M pt q; rfl
  | cons e rest ih =>
    intro M pt q
    rw [List.foldl_cons, ih]
    unfold lastEdgeWrite
    rw [show (e :: rest).reverse = rest.reverse ++ [e] from by simp,
      find_append_singleton]
    cases hf : rest.reverse.find? (edgeColumnHit q) with
    | some x => simp only [hf, Option.getD_some]
    | none =>
      simp only [hf, Option.getD_none]
      by_cases h2 : q = e.panels.2
      · simp [edgeColumnHit, edgeAssign, h2]
      · by_cases h1 : q = e.panels.1
        · simp [edgeColumnHit, edgeAssign, h1, h2]
        · simp [edgeColumnHit, edgeAssign, h1, h2]

theorem filamentInfluenceKernel_zero_dir (o p : Vec3) :
    filamentInfluenceKernel 0 o p = 0 := by
  unfold filamentInfluenceKernel
  ext <;> simp [Vec3.cross]

theorem scatterOne_zero_V (V : ℕ → Vec3) (inb outb : List ℕ) (M : ℕ → ℕ → Vec3)
    (hV : ∀ pt, V pt = 0) : scatterOne V inb outb M = M := by
  funext pt q
  simp only [scatterOne]
  split_ifs <;> simp [addCol_eq, hV]

theorem filamentScatter_zero_dirs (points verts dirs : List Vec3)
    (inb outb : List (List ℕ)) (M : ℕ → ℕ → Vec3)
    (hd : ∀ i : ℕ, dirs.getD i 0 = 0) :
    filamentScatter points verts dirs inb outb M = M := by
  unfold filamentScatter
  generalize List.range verts.length = L
  induction L generalizing M with
  | nil => rfl
  | cons a L ih =>
    simp only [List.foldl_cons]
    rw [scatterOne_zero_V _ _ _ _
      (fun pt => by rw [hd a]; exact filamentInfluenceKernel_zero_dir _ _)]
    exact ih M

theorem exampleWakeC1_dirs_zero : ∀ i : ℕ, exampleWakeC1.filamentDirs.getD i 0 = 0 := by
  intro i
  by_cases hi : i < 4
  · interval_cases i <;> rfl
  · rw [List.getD_eq_default]
    simp only [exampleWakeC1]
    simp
    omega

theorem arrangeExampleC1_eval :
    arrangeKuttaVertices [exampleEdgeC2, exampleEdgeB1] =
      some ([⟨0, 0, 0⟩, ⟨0, 1, 0⟩, ⟨1, 0, 0⟩, ⟨1, 1, 0⟩],
        [[0, 1], [1, 2], [], []], [[], [], [0, 1], [1, 2]]) := by
  have h_cd : vecLe ⟨0, 1, 0⟩ ⟨1, 1, 0⟩ := Or.inl (by norm_num)
  have h_bc_not : ¬vecLe ⟨1, 0, 0⟩ ⟨0, 1, 0⟩ := by norm_num [vecLe]
  have h_bd : vecLe ⟨1, 0, 0⟩ ⟨1, 1, 0⟩ := Or.inr ⟨by norm_num, Or.inl (by norm_num)⟩
  have h_ac : vecLe ⟨0, 0, 0⟩ ⟨0, 1, 0⟩ := Or.inr ⟨by norm_num, Or.inl (by norm_num)⟩
  have nac : (⟨0, 0, 0⟩ : Vec3) ≠ ⟨0, 1, 0⟩ := by norm_num [Vec3.mk.injEq]
  have ncb : (⟨0, 1, 0⟩ : Vec3) ≠ ⟨1, 0, 0⟩ := by norm_num [Vec3.mk.injEq]
  have nbd : (⟨1, 0, 0⟩ : Vec3) ≠ ⟨1, 1, 0⟩ := by norm_num [Vec3.mk.injEq]
  have nba : (⟨1, 0, 0⟩ : Vec3) ≠ ⟨0, 0, 0⟩ := by norm_num [Vec3.mk.injEq]
  have nbc : (⟨1, 0, 0⟩ : Vec3) ≠ ⟨0, 1, 0⟩ := by norm_num [Vec3.mk.injEq]
  have nca : (⟨0, 1, 0⟩ : Vec3) ≠ ⟨0, 0, 0⟩ := by norm_num [Vec3.mk.injEq]
  have nda : (⟨1, 1, 0⟩ : Vec3) ≠ ⟨0, 0, 0⟩ := by norm_num [Vec3.mk.injEq]
  have ndc : (⟨1, 1, 0⟩ : Vec3) ≠ ⟨0, 1, 0⟩ := by norm_num [Vec3.mk.injEq]
  have ndb : (⟨1, 1, 0⟩ : Vec3) ≠ ⟨1, 0, 0⟩ := by norm_num [Vec3.mk.injEq]
  have s1 : insertLex ⟨1, 1, 0⟩ [] = [⟨1, 1, 0⟩] := rfl
  have s2 : insertLex ⟨0, 1, 0⟩ [⟨1, 1, 0⟩] = [⟨0, 1, 0⟩, ⟨1, 1, 0⟩] := by
    simp only [insertLex]
    rw [if_pos h_cd]
  have s3 : insertLex ⟨1, 0, 0⟩ [⟨0, 1, 0⟩, ⟨1, 1, 0⟩] =
      [⟨0, 1, 0⟩, ⟨1, 0, 0⟩, ⟨1, 1, 0⟩] := by
    simp only [insertLex]
    rw [if_neg h_bc_not, if_pos h_bd]
  have s4 : insertLex ⟨0, 0, 0⟩ [⟨0, 1, 0⟩, ⟨1, 0, 0⟩, ⟨1, 1, 0⟩] =
      [⟨0, 0, 0⟩, ⟨0, 1, 0⟩, ⟨1, 0, 0⟩, ⟨1, 1, 0⟩] := by
    simp only [insertLex]
    rw [if_pos h_ac]
  have hsort : sortLex [⟨0, 0, 0⟩, ⟨1, 0, 0⟩, ⟨0, 1, 0⟩, ⟨1, 1, 0⟩] =
      [⟨0, 0, 0⟩, ⟨0, 1, 0⟩, ⟨1, 0, 0⟩, ⟨1, 1, 0⟩] := by
    simp only [sortLex]
    rw [s1, s2, s3, s4]
  have hded : dedupAdjacent [⟨0, 0, 0⟩, ⟨0, 1, 0⟩, ⟨1, 0, 0⟩, ⟨1, 1, 0⟩] =
      [⟨0, 0, 0⟩, ⟨0, 1, 0⟩, ⟨1, 0, 0⟩, ⟨1, 1, 0⟩] := by
    simp only [dedupAdjacent]
    rw [if_neg nac, if_neg ncb, if_neg nbd]
  have ia : indexOfVec ⟨0, 0, 0⟩
      [⟨0, 0, 0⟩, ⟨0, 1, 0⟩, ⟨1, 0, 0⟩, ⟨1, 1, 0⟩] = 0 := by
    simp [indexOfVec]
  have ib : indexOfVec ⟨1, 0, 0⟩
      [⟨0, 0, 0⟩, ⟨0, 1, 0⟩, ⟨1, 0, 0⟩, ⟨1, 1, 0⟩] = 2 := by
    simp [indexOfVec, nba, nbc]
  have ic : indexOfVec ⟨0, 1, 0⟩
      [⟨0, 0, 0⟩, ⟨0, 1, 0⟩, ⟨1, 0, 0⟩, ⟨1, 1, 0⟩] = 1 := by
    simp [indexOfVec, nca]
  have idd : indexOfVec ⟨1, 1, 0⟩
      [⟨0, 0, 0⟩, ⟨0, 1, 0⟩, ⟨1, 0, 0⟩, ⟨1, 1, 0⟩] = 3 := by
    simp [indexOfVec, nda, ndc, ndb]
  simp only [arrangeKuttaVertices]
  rw [if_neg (by simp : ¬([exampleEdgeC2, exampleEdgeB1] = []))]
  rw [show kuttaVertexList [exampleEdgeC2, exampleEdgeB1] =
      [⟨0, 0, 0⟩, ⟨1, 0, 0⟩, ⟨0, 1, 0⟩, ⟨1, 1, 0⟩] from rfl]
  rw [hsort, hded]
  simp only [List.map_cons, List.map_nil]
  rw [ia, ib, ic, idd]
  rfl

theorem mkExampleWakeC1_eval :
    mkNonIterativeWake [exampleEdgeC2, exampleEdgeB1] "freestream" none none =
      Except.ok exampleWakeC1 := by
  unfold mkNonIterativeWake
  rw [arrangeExampleC1_eval]
  rfl

theorem exampleWakeC1_code_entry :
    getInfluenceMatrix exampleWakeC1 [⟨0, 0, 1⟩] 3 0 1 =
      -(kuttaEdgeVortexInfluence exampleEdgeB1 ⟨0, 0, 1⟩) := by
  simp only [getInfluenceMatrix]
  rw [filamentScatter_zero_dirs _ _ _ _ _ _ exampleWakeC1_dirs_zero]
  rw [show exampleWakeC1.kuttaEdges = [exampleEdgeC2, exampleEdgeB1] from rfl]
  simp only [List.foldl_cons, List.foldl_nil]
  simp [edgeAssign, exampleEdgeB1, exampleWakeC1]

theorem exampleWakeC1_claimed_entry :
    claimedInfluenceMatrixC1 exampleWakeC1 [⟨0, 0, 1⟩] 3 0 1 =
      kuttaEdgeVortexInfluence exampleEdgeC2 ⟨0, 0, 1⟩ +
        -(kuttaEdgeVortexInfluence exampleEdgeB1 ⟨0, 0, 1⟩) := by
  have hstep : ∀ (e : KuttaEdge) (M : ℕ → ℕ → Vec3),
      scatterOne
          (fun pt =>
            filamentInfluenceKernel
              (exampleWakeC1.filamentDirs.getD (indexOfVec e.v1 exampleWakeC1.vertices) 0)
              e.v1 (([⟨0, 0, 1⟩] : List Vec3).getD pt 0))
          [] (panelsOf e)
          (scatterOne
            (fun pt =>
              filamentInfluenceKernel
                (exampleWakeC1.filamentDirs.getD (indexOfVec e.v0 exampleWakeC1.vertices) 0)
                e.v0 (([⟨0, 0, 1⟩] : List Vec3).getD pt 0))
            (panelsOf e) [] M) = M := by
    intro e M
    rw [scatterOne_zero_V _ _ _ _
        (fun pt => by
          rw [exampleWakeC1_dirs_zero]
          exact filamentInfluenceKernel_zero_dir _ _),
      scatterOne_zero_V _ _ _ _
        (fun pt => by
          rw [exampleWakeC1_dirs_zero]
          exact filamentInfluenceKernel_zero_dir _ _)]
  simp only [claimedInfluenceMatrixC1]
  rw [show exampleWakeC1.kuttaEdges = [exampleEdgeC2, exampleEdgeB1] from rfl]
  simp only [List.foldl_cons, List.foldl_nil]
  rw [hstep, hstep]
  simp [addCol_eq, exampleEdgeC2, exampleEdgeB1, exampleWakeC1]

theorem exampleEdgeC2_influence_y_neg :
    (kuttaEdgeVortexInfluence exampleEdgeC2 ⟨0, 0, 1⟩).y < 0 := by
  have hr0 : (⟨0, 0, 1⟩ : Vec3) - ⟨0, 0, 0⟩ = ⟨0, 0, 1⟩ := by
    ext <;> simp
  have hr1 : (⟨0, 0, 1⟩ : Vec3) - ⟨1, 0, 0⟩ = ⟨-1, 0, 1⟩ := by
    ext <;> simp <;> norm_num
  have hm0 : Vec3.norm ⟨0, 0, 1⟩ = 1 := by
    unfold Vec3.norm
    norm_num
  have hm1 : 0 < Vec3.norm (⟨-1, 0, 1⟩ : Vec3) := by
    unfold Vec3.norm
    apply Real.sqrt_pos.mpr
    norm_num
  have hdot : Vec3.dot ⟨0, 0, 1⟩ ⟨-1, 0, 1⟩ = 1 := by
    norm_num [Vec3.dot]
  have hcross : Vec3.cross ⟨0, 0, 1⟩ ⟨-1, 0, 1⟩ = ⟨0, -1, 0⟩ := by
    ext <;> simp [Vec3.cross] <;> norm_num
  have hval : kuttaEdgeVortexInfluence exampleEdgeC2 ⟨0, 0, 1⟩ =
      ((0.25 / Real.pi) * (1 + Vec3.norm ⟨-1, 0, 1⟩) /
          (1 * Vec3.norm ⟨-1, 0, 1⟩ * (1 * Vec3.norm ⟨-1, 0, 1⟩ + 1))) •
        (⟨0, -1, 0⟩ : Vec3) := by
    simp only [kuttaEdgeVortexInfluence]
    rw [show exampleEdgeC2.v0 = ⟨0, 0, 0⟩ from rfl,
      show exampleEdgeC2.v1 = ⟨1, 0, 0⟩ from rfl, hr0, hr1, hm0, hdot, hcross]
  rw [hval]
  simp only [Vec3.smul_y, Vec3.mk_y]
  have hscal : 0 < (0.25 / Real.pi) * (1 + Vec3.norm ⟨-1, 0, 1⟩) /
      (1 * Vec3.norm ⟨-1, 0, 1⟩ * (1 * Vec3.norm ⟨-1, 0, 1⟩ + 1)) := by
    apply div_pos
    · apply mul_pos
      · positivity
      · nlinarith [Vec3.norm_nonneg' (⟨-1, 0, 1⟩ : Vec3)]
    · nlinarith [hm1]
  nlinarith [hscal]

/-- C1 counterexample: for the two-edge wake built by the constructor (edges
sharing bracketing panel `1`, filament directions still zero so the filament
phase contributes nothing), the matrix entry at field point `(0,0,1)`, column
`1` differs between the code (the second edge OVERWRITES the column) and the
claimed accumulation semantics (both edges' contributions summed). -/
theorem C1_contribution_accumulation_counterexample :
    getInfluenceMatrix exampleWakeC1 [⟨0, 0, 1⟩] 3 0 1 ≠
      claimedInfluenceMatrixC1 exampleWakeC1 [⟨0, 0, 1⟩] 3 0 1 := by
  rw [exampleWakeC1_code_entry, exampleWakeC1_claimed_entry]
  intro heq
  have hy := congrArg Vec3.y heq
  simp at hy
  nlinarith [exampleEdgeC2_influence_y_neg, hy]

/-- C1 (corrected): `get_influence_matrix` does not accumulate the Kutta-edge
contributions — the edge loop uses `=` assignment, so entry `(pt, q)` of the
edge phase holds only the signed influence of the LAST edge in the list that
brackets column `q` (or the prior value if no edge does); the filament phase,
by contrast, genuinely accumulates: it adds its scatter on top of whatever the
edge phase stored. -/
theorem C1_contribution_accumulation :
    (∀ (points verts dirs : List Vec3) (inb outb : List (List ℕ))
        (M : ℕ → ℕ → Vec3) (pt q : ℕ),
        filamentScatter points verts dirs inb outb M pt q =
          M pt q + filamentScatter points verts dirs inb outb (fun _ _ => 0) pt q) ∧
      ∀ (points : List Vec3) (edges : List KuttaEdge) (M : ℕ → ℕ → Vec3) (pt q : ℕ),
        edges.foldl (edgeAssign points) M pt q =
          (lastEdgeWrite points pt q edges).getD (M pt q) :=
  ⟨filamentScatter_decomp, fun points edges M pt q => edgeFold_lastWrite points edges M pt q⟩
